import Mathlib

/-!
Shallow embedding of the executor connection registry and request/response
correlation layer of the wire-agent server (`src/server/src/executor/manager.ts`
together with its transport binding `src/server/src/ws/server.ts`).

The `ExecutorManager` class is embedded as a pure state type `Sys` together
with one Lean function per method.  The surrounding JavaScript runtime is made
explicit:

* JS `Map` objects become insertion-ordered association lists (`mapGet`,
  `mapSet`, `mapDelete` mirror `Map.get` / `Map.set` / `Map.delete`);
* each `new Promise` executor gets a fresh numeric future identifier; a call
  of its `resolve` / `reject` callback appends an entry to the `settled` log
  (the JS engine settles a promise at most once; we record every callback
  invocation, so exactly-once becomes a provable `Nodup` property);
* each `setTimeout` allocates a `Timer` record holding exactly the data the
  timeout closure in `execute` captures (the connection object, the request
  id, the `resolve` callback); `clearTimeout` removes it; an environment step
  may fire any still-armed timer, running the closure body;
* JS object identity of `ExecutorConnection` objects is modelled by a fresh
  numeric `objId` allocated at construction;
* `Date.now()`, `Math.random().toString(36).slice(2, 8)`, the transport
  handle of an incoming connection, and whether `ws.send` throws are
  environment inputs, passed as extra parameters;
* the truthiness tests of the source (`executorId || this.defaultExecutorId`,
  `if (!id)`, `if (!this.defaultExecutorId)`) are embedded with JS falsiness
  for strings: `undefined`/`null` and the empty string are falsy.
-/

namespace WireAgent

/-- Opaque parameter bag (`Record<string, unknown>` in the source); the core
never inspects it, so a key/value list of strings is a faithful stand-in. -/
def Params : Type := List (String × String)

instance : DecidableEq Params := by
  unfold Params
  infer_instance

/-- Registration payload (`ExecutorRegister` of `@wire-agent/protocol`):
`{executorId, platform, capabilities, meta}`. -/
structure ExecutorRegister where
  executorId : String
  platform : String
  capabilities : List String
  meta : Params
deriving DecidableEq

/-- Result message (`ExecuteResult` of the protocol): `{type: "result", id,
success, data?, error?}`.  The constant `type` tag is carried by the
constructor itself. -/
structure ExecuteResult where
  id : String
  success : Bool
  data : Option String := none
  error : Option String := none
deriving DecidableEq

/-- Messages the core sends to an executor over the transport: the command
envelope `{type: "execute", id, action, params}` and the control ping
`{type: "control", action: "ping"}`. -/
inductive WireMsg where
  | execCmd (id : String) (action : String) (params : Params)
  | ping
deriving DecidableEq

/-- Settlement of a JS promise: `resolve(result)` or `reject(error)` with the
error's message string. -/
inductive Settlement where
  | resolved (r : ExecuteResult)
  | rejected (msg : String)
deriving DecidableEq

/-! JS `Map` embedding: insertion-ordered association lists.  `Map.set`
replaces the value in place if the key is present, otherwise appends;
`Map.delete` removes the entry; iteration follows list order. -/

/-- `Map.get k` — first entry with the key (keys are unique in a JS map). -/
def mapGet {α : Type} (m : List (String × α)) (k : String) : Option α :=
  (m.find? (fun e => e.1 == k)).map (fun e => e.2)

/-- `Map.set k v` — replace in place if present, else append. -/
def mapSet {α : Type} (m : List (String × α)) (k : String) (v : α) :
    List (String × α) :=
  if m.any (fun e => e.1 == k) then
    m.map (fun e => if e.1 == k then (k, v) else e)
  else m ++ [(k, v)]

/-- `Map.delete k`. -/
def mapDelete {α : Type} (m : List (String × α)) (k : String) :
    List (String × α) :=
  m.filter (fun e => e.1 != k)


/-- One pending-completion record (the value stored in
`ExecutorConnection.pendingRequests`): the `resolve`/`reject` pair is the
promise identified by `promiseId`, the `timeout` field is the `setTimeout`
handle. -/
structure Pending where
  promiseId : Nat
  timerId : Nat
deriving DecidableEq

/-- The data captured by the timeout closure registered in `execute`:
the connection object (`connObj`, by identity), the request id, and the
promise to resolve. -/
structure Timer where
  handle : Nat
  connObj : Nat
  reqId : String
  promiseId : Nat
deriving DecidableEq

/-- `ExecutorConnection`: transport handle, registration info, liveness
timestamps and the pending-request map.  `objId` models JS object identity. -/
structure Conn where
  objId : Nat
  ws : Nat
  info : ExecutorRegister
  connectedAt : Nat
  lastActiveAt : Nat
  pending : List (String × Pending)
deriving DecidableEq

/-- In-place mutation of a connection object held in the registry: the
source mutates a `conn` object obtained from the map, which updates the map
entry holding that same object.  `updConn l o f` applies `f` to the
connection whose object identity is `o`. -/
def updConn (l : List (String × Conn)) (o : Nat) (f : Conn → Conn) :
    List (String × Conn) :=
  l.map (fun e => if e.2.objId == o then (e.1, f e.2) else e)

/-- Full state: the `ExecutorManager` fields (`executors`,
`defaultExecutorId`) plus the explicit runtime — armed timers, the promise
settlement log, and a fresh-id counter for object/promise/timer allocation. -/
structure Sys where
  executors : List (String × Conn)
  defaultExecutorId : Option String
  timers : List Timer
  settled : List (Nat × Settlement)
  nextId : Nat
deriving DecidableEq

/-- The state of a freshly constructed `ExecutorManager`. -/
def initState : Sys :=
  { executors := [], defaultExecutorId := none, timers := [], settled := [],
    nextId := 0 }

/-- `this.requestTimeout` (30 seconds). -/
def requestTimeout : Nat := 30000

/-- `this.HEARTBEAT_TIMEOUT` (45 seconds, 3 missed heartbeats). -/
def HEARTBEAT_TIMEOUT : Nat := 45000

/-- JS falsiness of `this.defaultExecutorId` (`string | null`): `null` and
the empty string are falsy. -/
def defaultFalsy : Option String → Bool
  | none => true
  | some d => d == ""

/-- JS `a || b` for `a : string | undefined`, `b : string | null`: `a` wins
unless it is `undefined` or the empty string. -/
def jsOrString : Option String → Option String → Option String
  | some a, b => if a == "" then b else some a
  | none, b => b

namespace ExecutorManager

/-- `register(ws, info)`: close the existing connection with the same
`executorId` (the returned handle, if any, is the one `close()` was called
on — the close event it triggers arrives later as a separate
`unregisterByWs` step), insert/replace the map entry with a fresh connection
object, and claim the default slot if `defaultExecutorId` is falsy. -/
def register (s : Sys) (ws : Nat) (info : ExecutorRegister) (now : Nat) :
    Sys × Option Nat :=
  let existing := mapGet s.executors info.executorId
  let closed := existing.map (fun c => c.ws)
  let newConn : Conn :=
    { objId := s.nextId, ws := ws, info := info, connectedAt := now,
      lastActiveAt := now, pending := [] }
  ({ s with
      executors := mapSet s.executors info.executorId newConn,
      defaultExecutorId :=
        if defaultFalsy s.defaultExecutorId then some info.executorId
        else s.defaultExecutorId,
      nextId := s.nextId + 1 }, closed)

/-- `unregister(executorId)`: if present, clear every pending request's
timeout, `reject` its promise with `new Error("Executor disconnected")`,
delete the map entry, and promote the first remaining key (or `null`) if the
default pointed at the removed entry. -/
def unregister (s : Sys) (executorId : String) : Sys :=
  match mapGet s.executors executorId with
  | none => s
  | some conn =>
    let executors := mapDelete s.executors executorId
    { s with
      timers := s.timers.filter (fun t =>
        !(conn.pending.any (fun q => q.2.timerId == t.handle))),
      settled := s.settled ++ conn.pending.map (fun q =>
        (q.2.promiseId, Settlement.rejected "Executor disconnected")),
      executors := executors,
      defaultExecutorId :=
        if s.defaultExecutorId = some executorId then
          match executors.map (fun e => e.1) with
          | [] => none
          | k :: _ => some k
        else s.defaultExecutorId }

/-- `unregisterByWs(ws)`: unregister the first connection whose transport
handle is identical to `ws`; no-op when none matches. -/
def unregisterByWs (s : Sys) (ws : Nat) : Sys :=
  match s.executors.find? (fun e => e.2.ws == ws) with
  | none => s
  | some e => unregister s e.1

/-- `getExecutor(executorId?)`: `const id = executorId || defaultExecutorId;
if (!id) return null; return executors.get(id) || null`. -/
def getExecutor (s : Sys) (executorId : Option String) : Option Conn :=
  match jsOrString executorId s.defaultExecutorId with
  | none => none
  | some i => if i == "" then none else mapGet s.executors i

/-- `setDefault(executorId)`: succeeds exactly when the id is registered. -/
def setDefault (s : Sys) (executorId : String) : Sys × Bool :=
  if (mapGet s.executors executorId).isSome then
    ({ s with defaultExecutorId := some executorId }, true)
  else (s, false)

/-- The correlation id minted in `execute`:
`` `req_${Date.now()}_${Math.random().toString(36).slice(2, 8)}` ``. -/
def genRequestId (now : Nat) (rand : String) : String :=
  "req_" ++ Nat.repr now ++ "_" ++ rand

/-- The Result the timeout closure resolves with. -/
def timeoutResult (id : String) : ExecuteResult :=
  { id := id, success := false,
    error := some ("Request timeout after " ++ Nat.repr requestTimeout ++ "ms") }

/-- The Result resolved when `ws.send` throws synchronously (`msg` is the
thrown error's message). -/
def sendFailResult (id : String) (msg : String) : ExecuteResult :=
  { id := id, success := false,
    error := some ("Failed to send command: " ++ msg) }

/-- The error string when no connection resolves:
`executorId ? `Executor not found: ...` : "No executor connected"` (JS
truthiness: an empty-string argument is falsy). -/
def noExecutorError (executorId : Option String) : String :=
  match executorId with
  | some e =>
    if e == "" then "No executor connected" else "Executor not found: " ++ e
  | none => "No executor connected"

/-- Output of `execute`: the post state, the value handed back to the caller
(`Sum.inl r` — an already-resolved Result returned without entering the
promise machinery; `Sum.inr p` — the not-yet-settled future `p`), and the
transport send attempts made during the call. -/
structure ExecOut where
  state : Sys
  ret : Sum ExecuteResult Nat
  sent : List (Nat × WireMsg)
deriving DecidableEq

/-- `execute(action, params, executorId?)`.  Environment inputs: `now` for
`Date.now()`, `rand` for the random suffix, and `sendErr = some msg` when
`ws.send` throws synchronously with message `msg`. -/
def execute (s : Sys) (action : String) (params : Params)
    (executorId : Option String) (now : Nat) (rand : String)
    (sendErr : Option String) : ExecOut :=
  match getExecutor s executorId with
  | none =>
    { state := s,
      ret := Sum.inl
        { id := "", success := false,
          error := some (noExecutorError executorId) },
      sent := [] }
  | some conn =>
    let id := genRequestId now rand
    let promiseId := s.nextId
    let timerId := s.nextId + 1
    let timer : Timer :=
      { handle := timerId, connObj := conn.objId, reqId := id,
        promiseId := promiseId }
    let s1 : Sys :=
      { s with
        timers := s.timers ++ [timer],
        executors := updConn s.executors conn.objId
          (fun c => { c with pending := (mapSet c.pending id
            { promiseId := promiseId, timerId := timerId }) }),
        nextId := s.nextId + 2 }
    match sendErr with
    | none =>
      { state :=
          { s1 with
            executors := updConn s1.executors conn.objId
              (fun c => { c with lastActiveAt := now }) },
        ret := Sum.inr promiseId,
        sent := [(conn.ws, WireMsg.execCmd id action params)] }
    | some msg =>
      { state :=
          { s1 with
            executors := updConn s1.executors conn.objId
              (fun c => { c with pending := mapDelete c.pending id }),
            timers := s1.timers.filter (fun u => u.handle != timerId),
            settled := s1.settled ++
              [(promiseId, Settlement.resolved (sendFailResult id msg))] },
        ret := Sum.inr promiseId,
        sent := [(conn.ws, WireMsg.execCmd id action params)] }

/-- The body of the timeout closure registered by `execute` when it fires:
`conn.pendingRequests.delete(id)` on the captured connection object, then
`resolve` with the timeout Result.  Firing also disarms the handle. -/
def timerFire (s : Sys) (t : Timer) : Sys :=
  { s with
    executors := updConn s.executors t.connObj
      (fun c => { c with pending := mapDelete c.pending t.reqId }),
    timers := s.timers.filter (fun u => u.handle != t.handle),
    settled := s.settled ++
      [(t.promiseId, Settlement.resolved (timeoutResult t.reqId))] }

/-- `handleResult(result)`: scan connections in insertion order for the first
whose pending map contains `result.id`; on a match clear the timeout, delete
the entry and resolve with the inbound result verbatim; otherwise do
nothing. -/
def handleResult (s : Sys) (r : ExecuteResult) : Sys :=
  match s.executors.find? (fun e => (mapGet e.2.pending r.id).isSome) with
  | none => s
  | some e =>
    match mapGet e.2.pending r.id with
    | none => s
    | some p =>
      { s with
        timers := s.timers.filter (fun u => u.handle != p.timerId),
        executors := updConn s.executors e.2.objId
          (fun c => { c with pending := mapDelete c.pending r.id }),
        settled := s.settled ++ [(p.promiseId, Settlement.resolved r)] }

/-- `sendPing(conn)`: the control ping envelope sent to the connection. -/
def sendPing (conn : Conn) : Nat × WireMsg := (conn.ws, WireMsg.ping)

/-- The loop body of `checkConnections`: ping every stale connection. -/
def checkConnectionsLoop (now : Nat) :
    List (String × Conn) → List (Nat × WireMsg)
  | [] => []
  | e :: rest =>
    if HEARTBEAT_TIMEOUT < now - e.2.lastActiveAt then
      sendPing e.2 :: checkConnectionsLoop now rest
    else checkConnectionsLoop now rest

/-- `checkConnections()`: the heartbeat sweep.  It only sends pings (the
send is wrapped in try/catch in the source); the manager state is not
mutated. -/
def checkConnections (s : Sys) (now : Nat) : Sys × List (Nat × WireMsg) :=
  (s, checkConnectionsLoop now s.executors)

/-- Shallow merge `{ ...a, ...b }` for meta bags. -/
def mergeMeta (a b : Params) : Params :=
  (a.map (fun kv =>
    match mapGet b kv.1 with
    | some v => (kv.1, v)
    | none => kv)) ++
  b.filter (fun kv => !(a.any (fun kv2 => kv2.1 == kv.1)))

/-- `updateState(executorId, meta)`: merge into `conn.info.meta` and refresh
`lastActiveAt`; silent no-op when the id is absent. -/
def updateState (s : Sys) (executorId : String) (meta : Params) (now : Nat) :
    Sys :=
  match mapGet s.executors executorId with
  | none => s
  | some conn =>
    { s with
      executors := updConn s.executors conn.objId (fun c =>
        { c with
          info := { c.info with meta := mergeMeta c.info.meta meta },
          lastActiveAt := now }) }

/-- The `pong` arm of `handleMessage`: refresh `lastActiveAt`. -/
def handlePong (s : Sys) (executorId : String) (now : Nat) : Sys :=
  match mapGet s.executors executorId with
  | none => s
  | some conn =>
    { s with
      executors := updConn s.executors conn.objId
        (fun c => { c with lastActiveAt := now }) }

end ExecutorManager

open ExecutorManager in
/-- One event processed by the single-threaded runtime: a method invocation
triggered by an inbound message or the transport (register, result, state,
pong, close/error), a tool call (`execute`, `setDefault`), the heartbeat
tick, or the firing of an armed timeout. -/
inductive Step : Sys → Sys → Prop where
  | ofRegister (s : Sys) (ws : Nat) (info : ExecutorRegister) (now : Nat) :
      Step s (register s ws info now).1
  | ofUnregister (s : Sys) (executorId : String) :
      Step s (unregister s executorId)
  | ofUnregisterByWs (s : Sys) (ws : Nat) :
      Step s (unregisterByWs s ws)
  | ofSetDefault (s : Sys) (executorId : String) :
      Step s (setDefault s executorId).1
  | ofExecute (s : Sys) (action : String) (params : Params)
      (executorId : Option String) (now : Nat) (rand : String)
      (sendErr : Option String) :
      Step s (execute s action params executorId now rand sendErr).state
  | ofHandleResult (s : Sys) (r : ExecuteResult) :
      Step s (handleResult s r)
  | ofTimerFire (s : Sys) (t : Timer) (h : t ∈ s.timers) :
      Step s (timerFire s t)
  | ofCheckConnections (s : Sys) (now : Nat) :
      Step s (checkConnections s now).1
  | ofUpdateState (s : Sys) (executorId : String) (meta : Params) (now : Nat) :
      Step s (updateState s executorId meta now)
  | ofPong (s : Sys) (executorId : String) (now : Nat) :
      Step s (handlePong s executorId now)

/-- States reachable from a freshly constructed manager. -/
inductive Reachable : Sys → Prop where
  | init : Reachable initState
  | step {s s' : Sys} : Reachable s → Step s s' → Reachable s'

/-! Basic lemmas about the JS `Map` embedding. -/

theorem mem_mapDelete {α : Type} {m : List (String × α)} {k : String}
    {e : String × α} : e ∈ mapDelete m k ↔ e ∈ m ∧ e.1 ≠ k := by
  simp [mapDelete, List.mem_filter]

theorem mapDelete_sublist {α : Type} (m : List (String × α)) (k : String) :
    (mapDelete m k).Sublist m :=
  List.filter_sublist m

theorem mapGet_eq_some_mem {α : Type} {m : List (String × α)} {k : String}
    {v : α} (h : mapGet m k = some v) : (k, v) ∈ m := by
  unfold mapGet at h
  cases hf : m.find? (fun e => e.1 == k) with
  | none => rw [hf] at h; simp at h
  | some e =>
    rw [hf] at h
    simp only [Option.map_some'] at h
    have he := List.mem_of_find?_eq_some hf
    have hk := List.find?_some hf
    simp only [beq_iff_eq] at hk
    injection h with hv
    have : (k, v) = e := by
      obtain ⟨a, b⟩ := e
      simp only at hk hv
      rw [← hk, ← hv]
    rw [this]; exact he

theorem mapGet_isSome_iff {α : Type} {m : List (String × α)} {k : String} :
    (mapGet m k).isSome ↔ k ∈ m.map (fun e => e.1) := by
  simp only [mapGet, Option.isSome_map', List.find?_isSome, List.mem_map,
    beq_iff_eq]

theorem mapGet_eq_none_iff {α : Type} {m : List (String × α)} {k : String} :
    mapGet m k = none ↔ ∀ e ∈ m, e.1 ≠ k := by
  simp [mapGet, List.find?_eq_none]

theorem mapSet_of_not_mem {α : Type} {m : List (String × α)} {k : String}
    (v : α) (h : k ∉ m.map (fun e => e.1)) : mapSet m k v = m ++ [(k, v)] := by
  unfold mapSet
  have : m.any (fun e => e.1 == k) = false := by
    simp only [List.any_eq_false, beq_iff_eq]
    intro e he hk
    exact h (List.mem_map.mpr ⟨e, he, hk⟩)
  rw [this]; rfl

theorem mapSet_keys {α : Type} (m : List (String × α)) (k : String) (v : α) :
    (mapSet m k v).map (fun e => e.1) =
      if k ∈ m.map (fun e => e.1) then m.map (fun e => e.1)
      else m.map (fun e => e.1) ++ [k] := by
  by_cases hk : k ∈ m.map (fun e => e.1)
  · rw [if_pos hk]
    obtain ⟨e0, he0, hk0⟩ := List.mem_map.mp hk
    have hany : m.any (fun e => e.1 == k) = true := by
      simp only [List.any_eq_true, beq_iff_eq]
      exact ⟨e0, he0, hk0⟩
    simp only [mapSet, hany, if_true, List.map_map]
    apply List.map_congr_left
    intro e _
    by_cases h : e.1 = k <;> simp [h]
  · rw [if_neg hk, mapSet_of_not_mem v hk]
    simp

theorem mem_mapSet_self {α : Type} (m : List (String × α)) (k : String)
    (v : α) : (k, v) ∈ mapSet m k v := by
  cases hany : m.any (fun e => e.1 == k) with
  | true =>
    simp only [mapSet, hany, if_true, List.mem_map]
    simp only [List.any_eq_true, beq_iff_eq] at hany
    obtain ⟨e0, he0, hk0⟩ := hany
    exact ⟨e0, he0, by simp [hk0]⟩
  | false => simp [mapSet, hany]

theorem mem_mapSet {α : Type} {m : List (String × α)} {k : String} {v : α}
    {e : String × α} (h : e ∈ mapSet m k v) :
    e = (k, v) ∨ (e ∈ m ∧ e.1 ≠ k) := by
  cases hany : m.any (fun e => e.1 == k) with
  | true =>
    simp only [mapSet, hany, if_true, List.mem_map] at h
    obtain ⟨e0, he0, heq⟩ := h
    by_cases h0 : e0.1 = k
    · left; rw [← heq]; simp [h0]
    · right
      have : e = e0 := by rw [← heq]; simp [h0]
      rw [this]
      exact ⟨he0, h0⟩
  | false =>
    simp only [mapSet, hany, Bool.false_eq_true, if_false, List.mem_append,
      List.mem_singleton] at h
    rcases h with h | h
    · right
      refine ⟨h, ?_⟩
      simp only [List.any_eq_false, beq_iff_eq] at hany
      exact hany e h
    · left; exact h

theorem mem_mapSet_of_ne {α : Type} {m : List (String × α)} {k : String}
    {v : α} {e : String × α} (he : e ∈ m) (hne : e.1 ≠ k) :
    e ∈ mapSet m k v := by
  cases hany : m.any (fun e => e.1 == k) with
  | true =>
    simp only [mapSet, hany, if_true, List.mem_map]
    exact ⟨e, he, by simp [hne]⟩
  | false => simp [mapSet, hany, he]

/-! Basic lemmas about `updConn`. -/

theorem updConn_keys (l : List (String × Conn)) (o : Nat) (f : Conn → Conn) :
    (updConn l o f).map (fun e => e.1) = l.map (fun e => e.1) := by
  unfold updConn
  rw [List.map_map]
  apply List.map_congr_left
  intro e _
  by_cases h : e.2.objId = o <;> simp [h]

theorem updConn_objIds (l : List (String × Conn)) (o : Nat) (f : Conn → Conn)
    (hf : ∀ c, (f c).objId = c.objId) :
    (updConn l o f).map (fun e => e.2.objId) = l.map (fun e => e.2.objId) := by
  unfold updConn
  rw [List.map_map]
  apply List.map_congr_left
  intro e _
  by_cases h : e.2.objId = o <;> simp [h, hf]

theorem mem_updConn {l : List (String × Conn)} {o : Nat} {f : Conn → Conn}
    {e' : String × Conn} (h : e' ∈ updConn l o f) :
    ∃ e ∈ l, (e.2.objId = o ∧ e' = (e.1, f e.2)) ∨
      (e.2.objId ≠ o ∧ e' = e) := by
  unfold updConn at h
  simp only [List.mem_map] at h
  obtain ⟨e, he, heq⟩ := h
  refine ⟨e, he, ?_⟩
  by_cases h0 : e.2.objId = o
  · left; exact ⟨h0, by rw [← heq]; simp [h0]⟩
  · right; exact ⟨h0, by rw [← heq]; simp [h0]⟩

theorem updConn_eq_of_not_mem (l : List (String × Conn)) (o : Nat)
    (f : Conn → Conn) (h : ∀ e ∈ l, e.2.objId ≠ o) : updConn l o f = l := by
  unfold updConn
  calc l.map (fun e => if e.2.objId == o then (e.1, f e.2) else e)
      = l.map id := List.map_congr_left (by intro e he; simp [h e he])
    _ = l := List.map_id l

theorem mem_keys_mapSet {α : Type} {m : List (String × α)} {k d : String}
    (v : α) (h : d ∈ m.map (fun e => e.1)) :
    d ∈ (mapSet m k v).map (fun e => e.1) := by
  rw [mapSet_keys]
  split <;> simp [h]

theorem keys_mapSet_self {α : Type} (m : List (String × α)) (k : String)
    (v : α) : k ∈ (mapSet m k v).map (fun e => e.1) :=
  List.mem_map.mpr ⟨(k, v), mem_mapSet_self m k v, rfl⟩

theorem mapSet_ne_nil {α : Type} (m : List (String × α)) (k : String)
    (v : α) : mapSet m k v ≠ [] :=
  List.ne_nil_of_mem (mem_mapSet_self m k v)

theorem mem_keys_mapDelete {α : Type} {m : List (String × α)} {k d : String}
    (h : d ∈ m.map (fun e => e.1)) (hne : d ≠ k) :
    d ∈ (mapDelete m k).map (fun e => e.1) := by
  obtain ⟨e, he, hed⟩ := List.mem_map.mp h
  exact List.mem_map.mpr ⟨e, mem_mapDelete.mpr ⟨he, hed ▸ hne⟩, hed⟩

/-! Development for claim C3: the default-executor invariant. -/

/-- The default-pointer invariant: `defaultExecutorId` is unset exactly when
the connection set is empty, and when set it names a registered key. -/
def DefaultInv (s : Sys) : Prop :=
  (s.defaultExecutorId = none ↔ s.executors = []) ∧
  ∀ d, s.defaultExecutorId = some d → d ∈ s.executors.map (fun e => e.1)

theorem defaultInv_init : DefaultInv initState := by
  constructor
  · simp [initState]
  · intro d hd; simp [initState] at hd

theorem defaultInv_of_keys_eq {s s' : Sys}
    (hkeys : s'.executors.map (fun e => e.1) = s.executors.map (fun e => e.1))
    (hd : s'.defaultExecutorId = s.defaultExecutorId) (h : DefaultInv s) :
    DefaultInv s' := by
  obtain ⟨hiff, hmem⟩ := h
  constructor
  · rw [hd, hiff]
    constructor
    · intro he
      have : s'.executors.map (fun e => e.1) = [] := by simp [hkeys, he]
      exact List.map_eq_nil_iff.mp this
    · intro he
      have : s.executors.map (fun e => e.1) = [] := by rw [← hkeys]; simp [he]
      exact List.map_eq_nil_iff.mp this
  · intro d hds
    rw [hkeys]
    exact hmem d (hd ▸ hds)

theorem defaultInv_register (s : Sys) (ws : Nat) (info : ExecutorRegister)
    (now : Nat) (h : DefaultInv s) :
    DefaultInv (ExecutorManager.register s ws info now).1 := by
  obtain ⟨hiff, hmem⟩ := h
  unfold ExecutorManager.register
  simp only
  constructor
  · constructor
    · intro hd
      by_cases hf : defaultFalsy s.defaultExecutorId = true
      · rw [if_pos hf] at hd; exact absurd hd (by simp)
      · rw [if_neg hf] at hd
        rw [hd] at hf
        exact absurd rfl hf
    · intro he
      exact absurd he (mapSet_ne_nil _ _ _)
  · intro d hd
    by_cases hf : defaultFalsy s.defaultExecutorId = true
    · rw [if_pos hf] at hd
      have : d = info.executorId := by injection hd with h0; exact h0.symm
      rw [this]
      exact keys_mapSet_self _ _ _
    · rw [if_neg hf] at hd
      exact mem_keys_mapSet _ (hmem d hd)

theorem defaultInv_unregister (s : Sys) (eid : String) (h : DefaultInv s) :
    DefaultInv (ExecutorManager.unregister s eid) := by
  obtain ⟨hiff, hmem⟩ := h
  unfold ExecutorManager.unregister
  cases hget : mapGet s.executors eid with
  | none => exact ⟨hiff, hmem⟩
  | some conn =>
    dsimp only
    by_cases hd : s.defaultExecutorId = some eid
    · rw [if_pos hd]
      cases hk : (mapDelete s.executors eid).map (fun e => e.1) with
      | nil =>
        refine ⟨⟨fun _ => ?_, fun _ => rfl⟩, fun d hds => ?_⟩
        · exact List.map_eq_nil_iff.mp hk
        · have hds' : (none : Option String) = some d := hds
          exact absurd hds' (by simp)
      | cons k ks =>
        refine ⟨⟨fun hc => ?_, fun hc => ?_⟩, fun d hds => ?_⟩
        · have hc' : (some k : Option String) = none := hc
          exact absurd hc' (by simp)
        · have hc' : mapDelete s.executors eid = [] := hc
          rw [hc'] at hk
          simp at hk
        · have hds' : (some k : Option String) = some d := hds
          have hdk : d = k := by injection hds' with h0; exact h0.symm
          show d ∈ (mapDelete s.executors eid).map (fun e => e.1)
          rw [hdk, hk]
          exact List.mem_cons_self k ks
    · rw [if_neg hd]
      cases hdflt : s.defaultExecutorId with
      | none =>
        have hnil : s.executors = [] := hiff.mp hdflt
        have : (eid, conn) ∈ s.executors := mapGet_eq_some_mem hget
        simp [hnil] at this
      | some d0 =>
        have hne : d0 ≠ eid := by
          intro hc; rw [hc] at hdflt; exact hd hdflt
        refine ⟨⟨fun hc => ?_, fun hc => ?_⟩, fun d hds => ?_⟩
        · have hc' : (some d0 : Option String) = none := hc
          exact absurd hc' (by simp)
        · have hc' : mapDelete s.executors eid = [] := hc
          have hmem0 := hmem d0 hdflt
          have : d0 ∈ (mapDelete s.executors eid).map (fun e => e.1) :=
            mem_keys_mapDelete hmem0 hne
          rw [hc'] at this
          simp at this
        · have hds' : (some d0 : Option String) = some d := hds
          have hdd : d = d0 := by injection hds' with h0; exact h0.symm
          show d ∈ (mapDelete s.executors eid).map (fun e => e.1)
          rw [hdd]
          exact mem_keys_mapDelete (hmem d0 hdflt) hne

theorem defaultInv_unregisterByWs (s : Sys) (ws : Nat) (h : DefaultInv s) :
    DefaultInv (ExecutorManager.unregisterByWs s ws) := by
  unfold ExecutorManager.unregisterByWs
  cases s.executors.find? (fun e => e.2.ws == ws) with
  | none => exact h
  | some e => exact defaultInv_unregister s e.1 h

theorem defaultInv_execute (s : Sys) (action : String) (params : Params)
    (executorId : Option String) (now : Nat) (rand : String)
    (sendErr : Option String) (h : DefaultInv s) :
    DefaultInv
      (ExecutorManager.execute s action params executorId now rand
        sendErr).state := by
  unfold ExecutorManager.execute
  cases hget : ExecutorManager.getExecutor s executorId with
  | none => exact h
  | some conn =>
    dsimp only
    cases sendErr with
    | none =>
      dsimp only
      refine defaultInv_of_keys_eq ?_ ?_ h
      · dsimp only
        rw [updConn_keys, updConn_keys]
      · rfl
    | some msg =>
      dsimp only
      refine defaultInv_of_keys_eq ?_ ?_ h
      · dsimp only
        rw [updConn_keys, updConn_keys]
      · rfl

theorem defaultInv_handleResult (s : Sys) (r : ExecuteResult)
    (h : DefaultInv s) : DefaultInv (ExecutorManager.handleResult s r) := by
  unfold ExecutorManager.handleResult
  cases s.executors.find? (fun e => (mapGet e.2.pending r.id).isSome) with
  | none => exact h
  | some e =>
    dsimp only
    cases mapGet e.2.pending r.id with
    | none => exact h
    | some p =>
      dsimp only
      refine defaultInv_of_keys_eq ?_ ?_ h
      · dsimp only
        exact updConn_keys _ _ _
      · rfl

theorem defaultInv_timerFire (s : Sys) (t : Timer) (h : DefaultInv s) :
    DefaultInv (ExecutorManager.timerFire s t) := by
  unfold ExecutorManager.timerFire
  refine defaultInv_of_keys_eq ?_ ?_ h
  · dsimp only
    exact updConn_keys _ _ _
  · rfl

theorem defaultInv_updateState (s : Sys) (eid : String) (meta : Params)
    (now : Nat) (h : DefaultInv s) :
    DefaultInv (ExecutorManager.updateState s eid meta now) := by
  unfold ExecutorManager.updateState
  cases mapGet s.executors eid with
  | none => exact h
  | some conn =>
    dsimp only
    refine defaultInv_of_keys_eq ?_ ?_ h
    · dsimp only
      exact updConn_keys _ _ _
    · rfl

theorem defaultInv_handlePong (s : Sys) (eid : String) (now : Nat)
    (h : DefaultInv s) : DefaultInv (ExecutorManager.handlePong s eid now) := by
  unfold ExecutorManager.handlePong
  cases mapGet s.executors eid with
  | none => exact h
  | some conn =>
    dsimp only
    refine defaultInv_of_keys_eq ?_ ?_ h
    · dsimp only
      exact updConn_keys _ _ _
    · rfl

theorem defaultInv_setDefault (s : Sys) (eid : String) (h : DefaultInv s) :
    DefaultInv (ExecutorManager.setDefault s eid).1 := by
  obtain ⟨hiff, hmem⟩ := h
  unfold ExecutorManager.setDefault
  by_cases hs : (mapGet s.executors eid).isSome
  · rw [if_pos hs]
    have hk : eid ∈ s.executors.map (fun e => e.1) := mapGet_isSome_iff.mp hs
    constructor
    · constructor
      · intro hc; exact absurd hc (by simp)
      · intro hc; rw [hc] at hk; simp at hk
    · intro d hds
      have : d = eid := by injection hds with h0; exact h0.symm
      rw [this]; exact hk
  · rw [if_neg hs]
    exact ⟨hiff, hmem⟩

theorem defaultInv_step {s s' : Sys} (st : Step s s') (h : DefaultInv s) :
    DefaultInv s' := by
  cases st with
  | ofRegister ws info now => exact defaultInv_register s ws info now h
  | ofUnregister eid => exact defaultInv_unregister s eid h
  | ofUnregisterByWs ws => exact defaultInv_unregisterByWs s ws h
  | ofSetDefault eid => exact defaultInv_setDefault s eid h
  | ofExecute action params executorId now rand sendErr =>
    exact defaultInv_execute s action params executorId now rand sendErr h
  | ofHandleResult r => exact defaultInv_handleResult s r h
  | ofTimerFire t ht => exact defaultInv_timerFire s t h
  | ofCheckConnections now => exact h
  | ofUpdateState eid meta now => exact defaultInv_updateState s eid meta now h
  | ofPong eid now => exact defaultInv_handlePong s eid now h

theorem defaultInv_reachable {s : Sys} (h : Reachable s) : DefaultInv s := by
  induction h with
  | init => exact defaultInv_init
  | step _ st ih => exact defaultInv_step st ih

/-! Development for claim C4: each pending request is settled exactly once.

We track every `resolve`/`reject` invocation in the `settled` log and prove
the log never records the same promise twice, together with the supporting
invariant that every pending map entry still has its timeout armed (so the
timeout arm stays available until one of the three race arms fires and
removes the entry). -/

/-- Promise ids that have been settled (each `resolve`/`reject` call appends
one entry, so `Nodup` of this list is the at-most-once property). -/
def settledIds (s : Sys) : List Nat := s.settled.map (fun q => q.1)

/-- Promise ids of armed timers. -/
def timerPromises (s : Sys) : List Nat := s.timers.map (fun t => t.promiseId)

/-- Handles of armed timers. -/
def timerHandles (s : Sys) : List Nat := s.timers.map (fun t => t.handle)

/-- Promise ids of the pending entries of one connection. -/
def connPromises (c : Conn) : List Nat :=
  c.pending.map (fun q => q.2.promiseId)

/-- Promise ids of all pending entries of registered connections. -/
def pendingPromises (s : Sys) : List Nat :=
  s.executors.flatMap (fun e => connPromises e.2)

/-- Every runtime-allocated identifier occurring in the state (used to state
freshness of the `nextId` counter). -/
def allIds (s : Sys) : List Nat :=
  settledIds s ++ timerPromises s ++ timerHandles s ++
    s.timers.map (fun t => t.connObj) ++
    s.executors.map (fun e => e.2.objId) ++ pendingPromises s ++
    s.executors.flatMap (fun e => e.2.pending.map (fun q => q.2.timerId))

/-- The correlation invariant maintained by every operation: settlements are
unique, armed timers point at unsettled promises, every pending entry has an
armed matching timer, and all runtime identifiers are fresh-allocated. -/
structure Inv (s : Sys) : Prop where
  settledNodup : (settledIds s).Nodup
  timerUnsettled : ∀ t ∈ s.timers, t.promiseId ∉ settledIds s
  timerPromNodup : (timerPromises s).Nodup
  timerHandleNodup : (timerHandles s).Nodup
  pendingMatch : ∀ e ∈ s.executors, ∀ q ∈ e.2.pending, ∃ t ∈ s.timers,
      t.handle = q.2.timerId ∧ t.promiseId = q.2.promiseId ∧
      t.connObj = e.2.objId ∧ t.reqId = q.1
  pendingPromNodup : (pendingPromises s).Nodup
  objNodup : (s.executors.map (fun e => e.2.objId)).Nodup
  pendingKeysNodup : ∀ e ∈ s.executors, (e.2.pending.map (fun q => q.1)).Nodup
  topKeysNodup : (s.executors.map (fun e => e.1)).Nodup
  freshBound : ∀ n ∈ allIds s, n < s.nextId

/-! Membership lemmas for `allIds`. -/

theorem mem_allIds_settled {s : Sys} {n : Nat} (h : n ∈ settledIds s) :
    n ∈ allIds s := by
  simp [allIds, h]

theorem mem_allIds_timerProm {s : Sys} {t : Timer} (h : t ∈ s.timers) :
    t.promiseId ∈ allIds s := by
  simp only [allIds, List.mem_append]
  exact Or.inl (Or.inl (Or.inl (Or.inl (Or.inl (Or.inr
    (List.mem_map.mpr ⟨t, h, rfl⟩))))))

theorem mem_allIds_timerHandle {s : Sys} {t : Timer} (h : t ∈ s.timers) :
    t.handle ∈ allIds s := by
  simp only [allIds, List.mem_append]
  exact Or.inl (Or.inl (Or.inl (Or.inl (Or.inr
    (List.mem_map.mpr ⟨t, h, rfl⟩)))))

theorem mem_allIds_timerConnObj {s : Sys} {t : Timer} (h : t ∈ s.timers) :
    t.connObj ∈ allIds s := by
  simp only [allIds, List.mem_append]
  exact Or.inl (Or.inl (Or.inl (Or.inr (List.mem_map.mpr ⟨t, h, rfl⟩))))

theorem mem_allIds_objId {s : Sys} {e : String × Conn} (h : e ∈ s.executors) :
    e.2.objId ∈ allIds s := by
  simp only [allIds, List.mem_append]
  exact Or.inl (Or.inl (Or.inr (List.mem_map.mpr ⟨e, h, rfl⟩)))

theorem mem_allIds_pendingProm {s : Sys} {e : String × Conn}
    {q : String × Pending} (he : e ∈ s.executors) (hq : q ∈ e.2.pending) :
    q.2.promiseId ∈ allIds s := by
  simp only [allIds, List.mem_append]
  exact Or.inl (Or.inr (List.mem_flatMap.mpr
    ⟨e, he, List.mem_map.mpr ⟨q, hq, rfl⟩⟩))

theorem mem_allIds_pendingTimer {s : Sys} {e : String × Conn}
    {q : String × Pending} (he : e ∈ s.executors) (hq : q ∈ e.2.pending) :
    q.2.timerId ∈ allIds s := by
  simp only [allIds, List.mem_append]
  exact Or.inr (List.mem_flatMap.mpr ⟨e, he, List.mem_map.mpr ⟨q, hq, rfl⟩⟩)

/-! General list helpers. -/

theorem flatMap_sublist_of_sublist {α β : Type} {l1 l2 : List α}
    (f : α → List β) (h : l1.Sublist l2) :
    (l1.flatMap f).Sublist (l2.flatMap f) := by
  induction h with
  | slnil => simp
  | cons a h ih =>
    rw [List.flatMap_cons]
    exact ih.trans (List.sublist_append_right _ _)
  | cons₂ a h ih =>
    rw [List.flatMap_cons, List.flatMap_cons]
    exact List.Sublist.append (List.Sublist.refl _) ih

theorem flatMap_sublist_pointwise {α β : Type} {l : List α}
    {f g : α → List β} (h : ∀ a ∈ l, (f a).Sublist (g a)) :
    (l.flatMap f).Sublist (l.flatMap g) := by
  induction l with
  | nil => simp
  | cons a l ih =>
    rw [List.flatMap_cons, List.flatMap_cons]
    exact List.Sublist.append (h a (List.mem_cons_self a l))
      (ih (fun b hb => h b (List.mem_cons_of_mem a hb)))

theorem nodup_keys_mapSet {α : Type} {m : List (String × α)} {k : String}
    (v : α) (h : (m.map (fun e => e.1)).Nodup) :
    ((mapSet m k v).map (fun e => e.1)).Nodup := by
  rw [mapSet_keys]
  by_cases hk : k ∈ m.map (fun e => e.1)
  · rw [if_pos hk]; exact h
  · rw [if_neg hk]
    exact List.Nodup.append h (List.nodup_singleton k)
      (fun a ha hb => hk (by rw [List.mem_singleton.mp hb] at ha; exact ha))

theorem mem_map_mapSet {α : Type} {m : List (String × α)} {k : String}
    {v : α} (g : α → Nat) {n : Nat}
    (h : n ∈ (mapSet m k v).map (fun e => g e.2)) :
    n ∈ m.map (fun e => g e.2) ∨ n = g v := by
  obtain ⟨e, he, hn⟩ := List.mem_map.mp h
  rcases mem_mapSet he with h1 | ⟨h1, _⟩
  · right; rw [← hn, h1]
  · left; exact List.mem_map.mpr ⟨e, h1, hn⟩

theorem nodup_map_mapSet {α : Type} {m : List (String × α)} {k : String}
    {v : α} (g : α → Nat) (hkeys : (m.map (fun e => e.1)).Nodup)
    (hg : (m.map (fun e => g e.2)).Nodup)
    (hfresh : g v ∉ m.map (fun e => g e.2)) :
    ((mapSet m k v).map (fun e => g e.2)).Nodup := by
  cases hany : m.any (fun e => e.1 == k) with
  | true =>
    simp only [mapSet, hany, if_true, List.map_map]
    have hkp : List.Pairwise (fun a b : String × α => a.1 ≠ b.1) m :=
      List.pairwise_map.mp hkeys
    have hgp : List.Pairwise (fun a b : String × α => g a.2 ≠ g b.2) m :=
      List.pairwise_map.mp hg
    have hp := hkp.and hgp
    refine List.pairwise_map.mpr (hp.imp_of_mem ?_)
    intro a b ha hb hab
    obtain ⟨hk1, hg1⟩ := hab
    by_cases hak : a.1 = k
    · have hbk : ¬ b.1 = k := fun hc => hk1 (by rw [hak, hc])
      simp only [Function.comp, hak, hbk, beq_iff_eq, if_true, if_false,
        if_neg hbk]
      intro hc
      exact hfresh (by rw [hc]; exact List.mem_map.mpr ⟨b, hb, rfl⟩)
    · by_cases hbk : b.1 = k
      · simp only [Function.comp, hak, hbk, beq_iff_eq, if_true, if_false,
          if_neg hak]
        intro hc
        exact hfresh (by rw [← hc]; exact List.mem_map.mpr ⟨a, ha, rfl⟩)
      · simp only [Function.comp, beq_iff_eq, if_neg hak, if_neg hbk]
        exact hg1
  | false =>
    simp only [mapSet, hany, Bool.false_eq_true, if_false, List.map_append]
    refine List.Nodup.append hg (by simp) ?_
    intro a ha hb
    simp only [List.map_cons, List.map_nil, List.mem_singleton] at hb
    rw [hb] at ha
    exact hfresh ha

/-! Derived consequences of `Inv`. -/

theorem Inv.timerInjProm {s : Sys} (inv : Inv s) {t1 t2 : Timer}
    (h1 : t1 ∈ s.timers) (h2 : t2 ∈ s.timers)
    (hp : t1.promiseId = t2.promiseId) : t1 = t2 :=
  List.inj_on_of_nodup_map inv.timerPromNodup h1 h2 hp

theorem Inv.timerInjHandle {s : Sys} (inv : Inv s) {t1 t2 : Timer}
    (h1 : t1 ∈ s.timers) (h2 : t2 ∈ s.timers) (hp : t1.handle = t2.handle) :
    t1 = t2 :=
  List.inj_on_of_nodup_map inv.timerHandleNodup h1 h2 hp

theorem Inv.objInj {s : Sys} (inv : Inv s) {e1 e2 : String × Conn}
    (h1 : e1 ∈ s.executors) (h2 : e2 ∈ s.executors)
    (ho : e1.2.objId = e2.2.objId) : e1 = e2 :=
  List.inj_on_of_nodup_map inv.objNodup h1 h2 ho

theorem Inv.pendingUnsettled {s : Sys} (inv : Inv s) {e : String × Conn}
    {q : String × Pending} (he : e ∈ s.executors) (hq : q ∈ e.2.pending) :
    q.2.promiseId ∉ settledIds s := by
  obtain ⟨t, ht, _, hp, _, _⟩ := inv.pendingMatch e he q hq
  rw [← hp]
  exact inv.timerUnsettled t ht

theorem Inv.pendingInj {s : Sys} (inv : Inv s) {e1 e2 : String × Conn}
    {q1 q2 : String × Pending} (he1 : e1 ∈ s.executors)
    (hq1 : q1 ∈ e1.2.pending) (he2 : e2 ∈ s.executors)
    (hq2 : q2 ∈ e2.2.pending) (hp : q1.2.promiseId = q2.2.promiseId) :
    e1 = e2 ∧ q1 = q2 := by
  have hnf := List.nodup_flatMap.mp inv.pendingPromNodup
  by_cases hee : e1 = e2
  · refine ⟨hee, ?_⟩
    subst hee
    have hc : (connPromises e1.2).Nodup := hnf.1 e1 he1
    exact List.inj_on_of_nodup_map hc hq1 hq2 hp
  · exfalso
    have hsym : Symmetric (List.Disjoint on fun e : String × Conn =>
        connPromises e.2) := by
      intro a b hab
      exact List.Disjoint.symm hab
    have hdisj := List.Pairwise.forall hsym hnf.2 he1 he2 hee
    have hm1 : q1.2.promiseId ∈ connPromises e1.2 :=
      List.mem_map.mpr ⟨q1, hq1, rfl⟩
    have hm2 : q1.2.promiseId ∈ connPromises e2.2 := by
      rw [hp]; exact List.mem_map.mpr ⟨q2, hq2, rfl⟩
    exact List.disjoint_left.mp hdisj hm1 hm2

/-! The registry projection a step either preserves or meaningfully
changes: key, object identity and pending map of every entry. -/

/-- Key, object identity and pending map of an entry. -/
def connProj (e : String × Conn) : String × Nat × List (String × Pending) :=
  (e.1, e.2.objId, e.2.pending)

theorem connProj_keys (l : List (String × Conn)) :
    l.map (fun e => e.1) = (l.map connProj).map (fun x => x.1) := by
  rw [List.map_map]; rfl

theorem connProj_objIds (l : List (String × Conn)) :
    l.map (fun e => e.2.objId) = (l.map connProj).map (fun x => x.2.1) := by
  rw [List.map_map]; rfl

theorem connProj_promises (l : List (String × Conn)) :
    l.flatMap (fun e => connPromises e.2) =
      (l.map connProj).flatMap (fun x => x.2.2.map (fun q => q.2.promiseId)) := by
  rw [List.flatMap_map]; rfl

theorem connProj_timerIds (l : List (String × Conn)) :
    l.flatMap (fun e => e.2.pending.map (fun q => q.2.timerId)) =
      (l.map connProj).flatMap (fun x => x.2.2.map (fun q => q.2.timerId)) := by
  rw [List.flatMap_map]; rfl

/-- A step that rewrites the registry but preserves every entry's key,
object identity and pending map preserves the correlation invariant. -/
theorem inv_congr {s : Sys} {ex2 : List (String × Conn)}
    (hproj : ex2.map connProj = s.executors.map connProj) (inv : Inv s) :
    Inv { s with executors := ex2 } := by
  have hkeys : ex2.map (fun e => e.1) = s.executors.map (fun e => e.1) := by
    rw [connProj_keys, hproj, ← connProj_keys]
  have hobj : ex2.map (fun e => e.2.objId) =
      s.executors.map (fun e => e.2.objId) := by
    rw [connProj_objIds, hproj, ← connProj_objIds]
  have hprom : ex2.flatMap (fun e => connPromises e.2) =
      s.executors.flatMap (fun e => connPromises e.2) := by
    rw [connProj_promises, hproj, ← connProj_promises]
  have htid : ex2.flatMap (fun e => e.2.pending.map (fun q => q.2.timerId)) =
      s.executors.flatMap (fun e => e.2.pending.map (fun q => q.2.timerId)) := by
    rw [connProj_timerIds, hproj, ← connProj_timerIds]
  have hent : ∀ e' ∈ ex2, ∃ e ∈ s.executors,
      e.1 = e'.1 ∧ e.2.objId = e'.2.objId ∧ e.2.pending = e'.2.pending := by
    intro e' he'
    have : connProj e' ∈ s.executors.map connProj := by
      rw [← hproj]; exact List.mem_map.mpr ⟨e', he', rfl⟩
    obtain ⟨e, he, hpe⟩ := List.mem_map.mp this
    have h3 : e.1 = e'.1 ∧ e.2.objId = e'.2.objId ∧
        e.2.pending = e'.2.pending := by
      have := hpe
      simp only [connProj, Prod.mk.injEq] at this
      exact this
    exact ⟨e, he, h3⟩
  refine ⟨inv.settledNodup, inv.timerUnsettled, inv.timerPromNodup,
    inv.timerHandleNodup, ?_, ?_, ?_, ?_, ?_, ?_⟩
  · intro e' he' q hq
    obtain ⟨e, he, h1, h2, h3⟩ := hent e' he'
    obtain ⟨t, ht, hth, htp, hto, htr⟩ :=
      inv.pendingMatch e he q (by rw [h3]; exact hq)
    exact ⟨t, ht, hth, htp, by rw [hto, h2], htr⟩
  · show (pendingPromises { s with executors := ex2 }).Nodup
    unfold pendingPromises
    dsimp only
    rw [hprom]
    exact inv.pendingPromNodup
  · show (ex2.map (fun e => e.2.objId)).Nodup
    rw [hobj]; exact inv.objNodup
  · intro e' he'
    obtain ⟨e, he, _, _, h3⟩ := hent e' he'
    rw [← h3]
    exact inv.pendingKeysNodup e he
  · show (ex2.map (fun e => e.1)).Nodup
    rw [hkeys]; exact inv.topKeysNodup
  · intro n hn
    have hall : allIds { s with executors := ex2 } = allIds s := by
      unfold allIds pendingPromises settledIds timerPromises timerHandles
      dsimp only
      rw [hobj, hprom, htid]
    rw [hall] at hn
    exact inv.freshBound n hn

theorem flatMap_mapSet_nil {m : List (String × Conn)} {k : String} {c : Conn}
    (g : Conn → List Nat) (hc : g c = []) :
    ((mapSet m k c).flatMap (fun e => g e.2)).Sublist
      (m.flatMap (fun e => g e.2)) := by
  cases hany : m.any (fun e => e.1 == k) with
  | true =>
    simp only [mapSet, hany, if_true]
    rw [List.flatMap_map]
    refine flatMap_sublist_pointwise ?_
    intro e _
    by_cases hek : e.1 = k
    · simp only [hek, beq_self_eq_true, if_true, hc]
      exact List.nil_sublist _
    · simp only [beq_iff_eq, if_neg hek]
      exact List.Sublist.refl _
  | false =>
    simp only [mapSet, hany, Bool.false_eq_true, if_false,
      List.flatMap_append]
    simp only [List.flatMap_cons, hc, List.flatMap_nil, List.append_nil]
    exact List.Sublist.refl _

theorem mem_allIds_cases {s : Sys} {n : Nat} (h : n ∈ allIds s) :
    n ∈ settledIds s ∨
    (∃ t ∈ s.timers, n = t.promiseId ∨ n = t.handle ∨ n = t.connObj) ∨
    (∃ e ∈ s.executors, n = e.2.objId ∨
      ∃ q ∈ e.2.pending, n = q.2.promiseId ∨ n = q.2.timerId) := by
  simp only [allIds, List.mem_append, pendingPromises, timerPromises,
    timerHandles, connPromises, List.mem_map, List.mem_flatMap] at h
  rcases h with ((((((h | h) | h) | h) | h) | h) | h)
  · exact Or.inl h
  · obtain ⟨t, ht, hn⟩ := h
    exact Or.inr (Or.inl ⟨t, ht, Or.inl hn.symm⟩)
  · obtain ⟨t, ht, hn⟩ := h
    exact Or.inr (Or.inl ⟨t, ht, Or.inr (Or.inl hn.symm)⟩)
  · obtain ⟨t, ht, hn⟩ := h
    exact Or.inr (Or.inl ⟨t, ht, Or.inr (Or.inr hn.symm)⟩)
  · obtain ⟨e, he, hn⟩ := h
    exact Or.inr (Or.inr ⟨e, he, Or.inl hn.symm⟩)
  · obtain ⟨e, he, q, hq, hn⟩ := h
    exact Or.inr (Or.inr ⟨e, he, Or.inr ⟨q, hq, Or.inl hn.symm⟩⟩)
  · obtain ⟨e, he, q, hq, hn⟩ := h
    exact Or.inr (Or.inr ⟨e, he, Or.inr ⟨q, hq, Or.inr hn.symm⟩⟩)

/-! Invariant preservation, one lemma per operation. -/

theorem inv_register (s : Sys) (ws : Nat) (info : ExecutorRegister)
    (now : Nat) (inv : Inv s) :
    Inv (ExecutorManager.register s ws info now).1 := by
  unfold ExecutorManager.register
  dsimp only
  have hfreshObj : s.nextId ∉ s.executors.map (fun e => e.2.objId) := by
    intro hc
    obtain ⟨e, he, heq⟩ := List.mem_map.mp hc
    have := inv.freshBound e.2.objId (mem_allIds_objId he)
    rw [heq] at this
    exact Nat.lt_irrefl _ this
  refine ⟨inv.settledNodup, inv.timerUnsettled, inv.timerPromNodup,
    inv.timerHandleNodup, ?_, ?_, ?_, ?_, ?_, ?_⟩
  · intro e' he' q hq
    rcases mem_mapSet he' with h1 | ⟨h1, _⟩
    · rw [h1] at hq
      simp at hq
    · exact inv.pendingMatch e' h1 q hq
  · exact List.Nodup.sublist (flatMap_mapSet_nil _ rfl) inv.pendingPromNodup
  · refine nodup_map_mapSet (fun c => c.objId) inv.topKeysNodup inv.objNodup ?_
    exact hfreshObj
  · intro e' he'
    rcases mem_mapSet he' with h1 | ⟨h1, _⟩
    · rw [h1]
      simp
    · exact inv.pendingKeysNodup e' h1
  · exact nodup_keys_mapSet _ inv.topKeysNodup
  · intro n hn
    rcases mem_allIds_cases hn with h | ⟨t, ht, h⟩ | ⟨e', he', h⟩
    · exact Nat.lt_succ_of_lt (inv.freshBound n (mem_allIds_settled h))
    · rcases h with h | h | h
      · exact Nat.lt_succ_of_lt
          (h ▸ inv.freshBound _ (mem_allIds_timerProm ht))
      · exact Nat.lt_succ_of_lt
          (h ▸ inv.freshBound _ (mem_allIds_timerHandle ht))
      · exact Nat.lt_succ_of_lt
          (h ▸ inv.freshBound _ (mem_allIds_timerConnObj ht))
    · rcases mem_mapSet he' with h1 | ⟨h1, _⟩
      · rcases h with h | ⟨q, hq, _⟩
        · rw [h, h1]
          exact Nat.lt_succ_self _
        · rw [h1] at hq
          simp at hq
      · rcases h with h | ⟨q, hq, h⟩
        · exact Nat.lt_succ_of_lt (h ▸ inv.freshBound _ (mem_allIds_objId h1))
        · rcases h with h | h
          · exact Nat.lt_succ_of_lt
              (h ▸ inv.freshBound _ (mem_allIds_pendingProm h1 hq))
          · exact Nat.lt_succ_of_lt
              (h ▸ inv.freshBound _ (mem_allIds_pendingTimer h1 hq))

theorem inv_unregister (s : Sys) (eid : String) (inv : Inv s) :
    Inv (ExecutorManager.unregister s eid) := by
  unfold ExecutorManager.unregister
  cases hget : mapGet s.executors eid with
  | none => exact inv
  | some conn =>
    dsimp only
    have hconn : (eid, conn) ∈ s.executors := mapGet_eq_some_mem hget
    have hcpNodup : (connPromises conn).Nodup :=
      (List.nodup_flatMap.mp inv.pendingPromNodup).1 (eid, conn) hconn
    have hmemT : ∀ t : Timer,
        t ∈ s.timers.filter
          (fun t => !(conn.pending.any (fun q => q.2.timerId == t.handle))) ↔
        t ∈ s.timers ∧ ∀ q ∈ conn.pending, q.2.timerId ≠ t.handle := by
      intro t
      rw [List.mem_filter]
      simp [List.any_eq_false]
    have hsid : ∀ (rest : List (Nat × Settlement)),
        (s.settled ++ conn.pending.map (fun q =>
          (q.2.promiseId, Settlement.rejected "Executor disconnected"))).map
            (fun q => q.1) = settledIds s ++ connPromises conn := by
      intro _
      unfold settledIds connPromises
      rw [List.map_append, List.map_map]
      rfl
    refine ⟨?_, ?_, ?_, ?_, ?_, ?_, ?_, ?_, ?_, ?_⟩
    · show ((s.settled ++ conn.pending.map (fun q =>
        (q.2.promiseId, Settlement.rejected "Executor disconnected"))).map
          (fun q => q.1)).Nodup
      rw [hsid []]
      refine List.Nodup.append inv.settledNodup hcpNodup ?_
      intro a ha hb
      obtain ⟨q, hq, hqa⟩ := List.mem_map.mp hb
      rw [← hqa] at ha
      exact inv.pendingUnsettled hconn hq ha
    · intro t ht
      have ⟨htmem, htp⟩ := (hmemT t).mp ht
      show t.promiseId ∉ (s.settled ++ conn.pending.map (fun q =>
        (q.2.promiseId, Settlement.rejected "Executor disconnected"))).map
          (fun q => q.1)
      rw [hsid []]
      rw [List.mem_append]
      rintro (hc | hc)
      · exact inv.timerUnsettled t htmem hc
      · obtain ⟨q, hq, hqp⟩ := List.mem_map.mp hc
        obtain ⟨tq, htq, hth, htpq, _, _⟩ :=
          inv.pendingMatch (eid, conn) hconn q hq
        have : tq = t := inv.timerInjProm htq htmem (by rw [htpq, hqp])
        rw [← this] at htp
        exact htp q hq (by rw [← hth])
    · exact List.Nodup.sublist
        (List.Sublist.map _ (List.filter_sublist _)) inv.timerPromNodup
    · exact List.Nodup.sublist
        (List.Sublist.map _ (List.filter_sublist _)) inv.timerHandleNodup
    · intro e' he' q hq
      have ⟨hmem, hne⟩ := mem_mapDelete.mp he'
      obtain ⟨t, ht, hth, htp, hto, htr⟩ := inv.pendingMatch e' hmem q hq
      refine ⟨t, ?_, hth, htp, hto, htr⟩
      rw [hmemT t]
      refine ⟨ht, ?_⟩
      intro q0 hq0 hc
      obtain ⟨t0, ht0, h0h, h0p, _, _⟩ :=
        inv.pendingMatch (eid, conn) hconn q0 hq0
      have ht0t : t0 = t := inv.timerInjHandle ht0 ht (by rw [h0h, hc])
      have hpp : q.2.promiseId = q0.2.promiseId := by
        rw [← htp, ← ht0t, h0p]
      obtain ⟨hee, _⟩ :=
        inv.pendingInj hmem hq hconn hq0 hpp
      rw [hee] at hne
      exact hne rfl
    · show ((mapDelete s.executors eid).flatMap
        (fun e => connPromises e.2)).Nodup
      exact List.Nodup.sublist
        (flatMap_sublist_of_sublist _ (mapDelete_sublist _ _))
        inv.pendingPromNodup
    · exact List.Nodup.sublist
        (List.Sublist.map _ (mapDelete_sublist _ _)) inv.objNodup
    · intro e' he'
      exact inv.pendingKeysNodup e' (mem_mapDelete.mp he').1
    · exact List.Nodup.sublist
        (List.Sublist.map _ (mapDelete_sublist _ _)) inv.topKeysNodup
    · intro n hn
      rcases mem_allIds_cases hn with h | ⟨t, ht, h⟩ | ⟨e', he', h⟩
      · have h' : n ∈ settledIds s ++ connPromises conn := by
          have h0 : n ∈ (s.settled ++ conn.pending.map (fun q =>
            (q.2.promiseId, Settlement.rejected "Executor disconnected"))).map
              (fun q => q.1) := h
          rw [hsid []] at h0
          exact h0
        rcases List.mem_append.mp h' with h | h
        · exact inv.freshBound n (mem_allIds_settled h)
        · obtain ⟨q, hq, hqn⟩ := List.mem_map.mp h
          exact hqn ▸ inv.freshBound _ (mem_allIds_pendingProm hconn hq)
      · have htmem := ((hmemT t).mp ht).1
        rcases h with h | h | h
        · exact h ▸ inv.freshBound _ (mem_allIds_timerProm htmem)
        · exact h ▸ inv.freshBound _ (mem_allIds_timerHandle htmem)
        · exact h ▸ inv.freshBound _ (mem_allIds_timerConnObj htmem)
      · have hmem := (mem_mapDelete.mp he').1
        rcases h with h | ⟨q, hq, h⟩
        · exact h ▸ inv.freshBound _ (mem_allIds_objId hmem)
        · rcases h with h | h
          · exact h ▸ inv.freshBound _ (mem_allIds_pendingProm hmem hq)
          · exact h ▸ inv.freshBound _ (mem_allIds_pendingTimer hmem hq)

/-- Completion of one pending request (shared shape of `handleResult` and of
the synchronous-send-failure branch of `execute`): clear the entry's
timeout, delete the entry from its connection's pending map, and settle its
promise. -/
theorem inv_complete (s : Sys) (o : Nat) (k : String) (p : Pending)
    (x : Settlement) (ent : String × Conn) (hent : ent ∈ s.executors)
    (hO : ent.2.objId = o) (hkp : (k, p) ∈ ent.2.pending) (inv : Inv s) :
    Inv { s with
      timers := s.timers.filter (fun u => u.handle != p.timerId),
      executors := updConn s.executors o
        (fun c => { c with pending := mapDelete c.pending k }),
      settled := s.settled ++ [(p.promiseId, x)] } := by
  obtain ⟨tq, htq, hqh, hqp, hqo, hqr⟩ := inv.pendingMatch ent hent (k, p) hkp
  have hmemT : ∀ t : Timer,
      t ∈ s.timers.filter (fun u => u.handle != p.timerId) ↔
      t ∈ s.timers ∧ t.handle ≠ p.timerId := by
    intro t
    rw [List.mem_filter]
    simp
  have hsid : (s.settled ++ [(p.promiseId, x)]).map (fun q => q.1) =
      settledIds s ++ [p.promiseId] := by
    unfold settledIds
    rw [List.map_append]
    rfl
  refine ⟨?_, ?_, ?_, ?_, ?_, ?_, ?_, ?_, ?_, ?_⟩
  · show ((s.settled ++ [(p.promiseId, x)]).map (fun q => q.1)).Nodup
    rw [hsid]
    refine List.Nodup.append inv.settledNodup (by simp) ?_
    intro a ha hb
    rw [List.mem_singleton.mp hb] at ha
    exact inv.pendingUnsettled hent hkp ha
  · intro t ht
    have ⟨htmem, hth⟩ := (hmemT t).mp ht
    show t.promiseId ∉ (s.settled ++ [(p.promiseId, x)]).map (fun q => q.1)
    rw [hsid, List.mem_append]
    rintro (hc | hc)
    · exact inv.timerUnsettled t htmem hc
    · have hcp : t.promiseId = p.promiseId := List.mem_singleton.mp hc
      have htt : t = tq := inv.timerInjProm htmem htq (by rw [hcp, hqp])
      rw [htt] at hth
      exact hth hqh
  · exact List.Nodup.sublist
      (List.Sublist.map _ (List.filter_sublist _)) inv.timerPromNodup
  · exact List.Nodup.sublist
      (List.Sublist.map _ (List.filter_sublist _)) inv.timerHandleNodup
  · intro e' he' q' hq'
    have he2 : e' ∈ updConn s.executors o
        (fun c => { c with pending := mapDelete c.pending k }) := he'
    obtain ⟨e, he, hcase⟩ := mem_updConn he2
    rcases hcase with ⟨heo, he'eq⟩ | ⟨heo, he'eq⟩
    · have hee : e = ent := inv.objInj he hent (by rw [heo, hO])
      subst hee
      rw [he'eq] at hq'
      dsimp only at hq'
      have ⟨hq'mem, hq'ne⟩ := mem_mapDelete.mp hq'
      obtain ⟨t', ht', h'h, h'p, h'o, h'r⟩ := inv.pendingMatch e he q' hq'mem
      refine ⟨t', ?_, h'h, h'p, ?_, h'r⟩
      · rw [hmemT t']
        refine ⟨ht', ?_⟩
        intro hc
        have htt : t' = tq := inv.timerInjHandle ht' htq (by rw [hc, hqh])
        have hpp : q'.2.promiseId = (k, p).2.promiseId := by
          rw [← h'p, htt, hqp]
        obtain ⟨_, hqq⟩ := inv.pendingInj he hq'mem he hkp hpp
        rw [hqq] at hq'ne
        exact hq'ne rfl
      · rw [he'eq]
        exact h'o
    · rw [he'eq] at hq'
      obtain ⟨t', ht', h'h, h'p, h'o, h'r⟩ := inv.pendingMatch e he q' hq'
      refine ⟨t', ?_, h'h, h'p, by rw [he'eq]; exact h'o, h'r⟩
      rw [hmemT t']
      refine ⟨ht', ?_⟩
      intro hc
      have htt : t' = tq := inv.timerInjHandle ht' htq (by rw [hc, hqh])
      rw [htt, hqo, hO] at h'o
      exact heo h'o.symm
  · show ((updConn s.executors o
      (fun c => { c with pending := mapDelete c.pending k })).flatMap
        (fun e => connPromises e.2)).Nodup
    unfold updConn
    rw [List.flatMap_map]
    refine List.Nodup.sublist (flatMap_sublist_pointwise ?_)
      inv.pendingPromNodup
    intro e _
    by_cases heo : e.2.objId = o
    · simp only [heo, beq_self_eq_true, if_true]
      exact List.Sublist.map _ (mapDelete_sublist _ _)
    · simp only [beq_iff_eq, if_neg heo]
      exact List.Sublist.refl _
  · show ((updConn s.executors o
      (fun c => { c with pending := mapDelete c.pending k })).map
        (fun e => e.2.objId)).Nodup
    rw [updConn_objIds s.executors o
      (fun c => { c with pending := mapDelete c.pending k }) (fun c => rfl)]
    exact inv.objNodup
  · intro e' he'
    have he2 : e' ∈ updConn s.executors o
        (fun c => { c with pending := mapDelete c.pending k }) := he'
    obtain ⟨e, he, hcase⟩ := mem_updConn he2
    rcases hcase with ⟨_, he'eq⟩ | ⟨_, he'eq⟩
    · rw [he'eq]
      dsimp only
      exact List.Nodup.sublist
        (List.Sublist.map _ (mapDelete_sublist _ _))
        (inv.pendingKeysNodup e he)
    · rw [he'eq]
      exact inv.pendingKeysNodup e he
  · show ((updConn s.executors o
      (fun c => { c with pending := mapDelete c.pending k })).map
        (fun e => e.1)).Nodup
    rw [updConn_keys]
    exact inv.topKeysNodup
  · intro n hn
    rcases mem_allIds_cases hn with h | ⟨t, ht, h⟩ | ⟨e', he', h⟩
    · have h' : n ∈ settledIds s ++ [p.promiseId] := by
        have h0 : n ∈ (s.settled ++ [(p.promiseId, x)]).map (fun q => q.1) := h
        rw [hsid] at h0
        exact h0
      rcases List.mem_append.mp h' with h | h
      · exact inv.freshBound n (mem_allIds_settled h)
      · rw [List.mem_singleton.mp h]
        exact inv.freshBound _ (mem_allIds_pendingProm hent hkp)
    · have htmem := ((hmemT t).mp ht).1
      rcases h with h | h | h
      · exact h ▸ inv.freshBound _ (mem_allIds_timerProm htmem)
      · exact h ▸ inv.freshBound _ (mem_allIds_timerHandle htmem)
      · exact h ▸ inv.freshBound _ (mem_allIds_timerConnObj htmem)
    · have he2 : e' ∈ updConn s.executors o
          (fun c => { c with pending := mapDelete c.pending k }) := he'
      obtain ⟨e, he, hcase⟩ := mem_updConn he2
      have hobj : e'.2.objId = e.2.objId := by
        rcases hcase with ⟨_, he'eq⟩ | ⟨_, he'eq⟩ <;> rw [he'eq]
      have hpend : ∀ q' ∈ e'.2.pending, q' ∈ e.2.pending := by
        intro q' hq'
        rcases hcase with ⟨_, he'eq⟩ | ⟨_, he'eq⟩
        · rw [he'eq] at hq'
          exact (mem_mapDelete.mp hq').1
        · rw [he'eq] at hq'
          exact hq'
      rcases h with h | ⟨q', hq', h⟩
      · rw [h, hobj]
        exact inv.freshBound _ (mem_allIds_objId he)
      · rcases h with h | h
        · exact h ▸ inv.freshBound _
            (mem_allIds_pendingProm he (hpend q' hq'))
        · exact h ▸ inv.freshBound _
            (mem_allIds_pendingTimer he (hpend q' hq'))

theorem inv_timerFire (s : Sys) (t : Timer) (ht : t ∈ s.timers)
    (inv : Inv s) : Inv (ExecutorManager.timerFire s t) := by
  unfold ExecutorManager.timerFire
  have hmemT : ∀ u : Timer,
      u ∈ s.timers.filter (fun u => u.handle != t.handle) ↔
      u ∈ s.timers ∧ u.handle ≠ t.handle := by
    intro u
    rw [List.mem_filter]
    simp
  have hsid : (s.settled ++
      [(t.promiseId, Settlement.resolved
        (ExecutorManager.timeoutResult t.reqId))]).map (fun q => q.1) =
      settledIds s ++ [t.promiseId] := by
    unfold settledIds
    rw [List.map_append]
    rfl
  refine ⟨?_, ?_, ?_, ?_, ?_, ?_, ?_, ?_, ?_, ?_⟩
  · show ((s.settled ++ [(t.promiseId, Settlement.resolved
      (ExecutorManager.timeoutResult t.reqId))]).map (fun q => q.1)).Nodup
    rw [hsid]
    refine List.Nodup.append inv.settledNodup (by simp) ?_
    intro a ha hb
    rw [List.mem_singleton.mp hb] at ha
    exact inv.timerUnsettled t ht ha
  · intro u hu
    have ⟨humem, huh⟩ := (hmemT u).mp hu
    show u.promiseId ∉ (s.settled ++ [(t.promiseId, Settlement.resolved
      (ExecutorManager.timeoutResult t.reqId))]).map (fun q => q.1)
    rw [hsid, List.mem_append]
    rintro (hc | hc)
    · exact inv.timerUnsettled u humem hc
    · have hcp : u.promiseId = t.promiseId := List.mem_singleton.mp hc
      have htt : u = t := inv.timerInjProm humem ht hcp
      rw [htt] at huh
      exact huh rfl
  · exact List.Nodup.sublist
      (List.Sublist.map _ (List.filter_sublist _)) inv.timerPromNodup
  · exact List.Nodup.sublist
      (List.Sublist.map _ (List.filter_sublist _)) inv.timerHandleNodup
  · intro e' he' q' hq'
    have he2 : e' ∈ updConn s.executors t.connObj
        (fun c => { c with pending := mapDelete c.pending t.reqId }) := he'
    obtain ⟨e, he, hcase⟩ := mem_updConn he2
    rcases hcase with ⟨heo, he'eq⟩ | ⟨heo, he'eq⟩
    · rw [he'eq] at hq'
      dsimp only at hq'
      have ⟨hq'mem, hq'ne⟩ := mem_mapDelete.mp hq'
      obtain ⟨t', ht', h'h, h'p, h'o, h'r⟩ := inv.pendingMatch e he q' hq'mem
      refine ⟨t', ?_, h'h, h'p, ?_, h'r⟩
      · rw [hmemT t']
        refine ⟨ht', ?_⟩
        intro hc
        have htt : t' = t := inv.timerInjHandle ht' ht hc
        rw [htt] at h'r
        exact hq'ne h'r.symm
      · rw [he'eq]
        exact h'o
    · rw [he'eq] at hq'
      obtain ⟨t', ht', h'h, h'p, h'o, h'r⟩ := inv.pendingMatch e he q' hq'
      refine ⟨t', ?_, h'h, h'p, by rw [he'eq]; exact h'o, h'r⟩
      rw [hmemT t']
      refine ⟨ht', ?_⟩
      intro hc
      have htt : t' = t := inv.timerInjHandle ht' ht hc
      rw [htt] at h'o
      exact heo h'o.symm
  · show ((updConn s.executors t.connObj
      (fun c => { c with pending := mapDelete c.pending t.reqId })).flatMap
        (fun e => connPromises e.2)).Nodup
    unfold updConn
    rw [List.flatMap_map]
    refine List.Nodup.sublist (flatMap_sublist_pointwise ?_)
      inv.pendingPromNodup
    intro e _
    by_cases heo : e.2.objId = t.connObj
    · simp only [heo, beq_self_eq_true, if_true]
      exact List.Sublist.map _ (mapDelete_sublist _ _)
    · simp only [beq_iff_eq, if_neg heo]
      exact List.Sublist.refl _
  · show ((updConn s.executors t.connObj
      (fun c => { c with pending := mapDelete c.pending t.reqId })).map
        (fun e => e.2.objId)).Nodup
    rw [updConn_objIds s.executors t.connObj
      (fun c => { c with pending := mapDelete c.pending t.reqId })
      (fun c => rfl)]
    exact inv.objNodup
  · intro e' he'
    have he2 : e' ∈ updConn s.executors t.connObj
        (fun c => { c with pending := mapDelete c.pending t.reqId }) := he'
    obtain ⟨e, he, hcase⟩ := mem_updConn he2
    rcases hcase with ⟨_, he'eq⟩ | ⟨_, he'eq⟩
    · rw [he'eq]
      dsimp only
      exact List.Nodup.sublist
        (List.Sublist.map _ (mapDelete_sublist _ _))
        (inv.pendingKeysNodup e he)
    · rw [he'eq]
      exact inv.pendingKeysNodup e he
  · show ((updConn s.executors t.connObj
      (fun c => { c with pending := mapDelete c.pending t.reqId })).map
        (fun e => e.1)).Nodup
    rw [updConn_keys]
    exact inv.topKeysNodup
  · intro n hn
    rcases mem_allIds_cases hn with h | ⟨u, hu, h⟩ | ⟨e', he', h⟩
    · have h' : n ∈ settledIds s ++ [t.promiseId] := by
        have h0 : n ∈ (s.settled ++ [(t.promiseId, Settlement.resolved
          (ExecutorManager.timeoutResult t.reqId))]).map (fun q => q.1) := h
        rw [hsid] at h0
        exact h0
      rcases List.mem_append.mp h' with h | h
      · exact inv.freshBound n (mem_allIds_settled h)
      · rw [List.mem_singleton.mp h]
        exact inv.freshBound _ (mem_allIds_timerProm ht)
    · have humem := ((hmemT u).mp hu).1
      rcases h with h | h | h
      · exact h ▸ inv.freshBound _ (mem_allIds_timerProm humem)
      · exact h ▸ inv.freshBound _ (mem_allIds_timerHandle humem)
      · exact h ▸ inv.freshBound _ (mem_allIds_timerConnObj humem)
    · have he2 : e' ∈ updConn s.executors t.connObj
          (fun c => { c with pending := mapDelete c.pending t.reqId }) := he'
      obtain ⟨e, he, hcase⟩ := mem_updConn he2
      have hobj : e'.2.objId = e.2.objId := by
        rcases hcase with ⟨_, he'eq⟩ | ⟨_, he'eq⟩ <;> rw [he'eq]
      have hpend : ∀ q' ∈ e'.2.pending, q' ∈ e.2.pending := by
        intro q' hq'
        rcases hcase with ⟨_, he'eq⟩ | ⟨_, he'eq⟩
        · rw [he'eq] at hq'
          exact (mem_mapDelete.mp hq').1
        · rw [he'eq] at hq'
          exact hq'
      rcases h with h | ⟨q', hq', h⟩
      · rw [h, hobj]
        exact inv.freshBound _ (mem_allIds_objId he)
      · rcases h with h | h
        · exact h ▸ inv.freshBound _
            (mem_allIds_pendingProm he (hpend q' hq'))
        · exact h ▸ inv.freshBound _
            (mem_allIds_pendingTimer he (hpend q' hq'))

theorem getExecutor_mem {s : Sys} {executorId : Option String} {conn : Conn}
    (h : ExecutorManager.getExecutor s executorId = some conn) :
    ∃ k0, (k0, conn) ∈ s.executors := by
  unfold ExecutorManager.getExecutor at h
  cases hj : jsOrString executorId s.defaultExecutorId with
  | none =>
    rw [hj] at h
    simp at h
  | some i =>
    rw [hj] at h
    dsimp only at h
    by_cases hi : i = ""
    · have hc : (i == "") = true := by simp [hi]
      rw [if_pos hc] at h
      simp at h
    · have hc : ¬ ((i == "") = true) := by simp [hi]
      rw [if_neg hc] at h
      exact ⟨i, mapGet_eq_some_mem h⟩

theorem updConn_connProj (l : List (String × Conn)) (o : Nat) (f : Conn → Conn)
    (hf : ∀ c, (f c).objId = c.objId ∧ (f c).pending = c.pending) :
    (updConn l o f).map connProj = l.map connProj := by
  unfold updConn
  rw [List.map_map]
  apply List.map_congr_left
  intro e _
  show connProj (if e.2.objId == o then (e.1, f e.2) else e) = connProj e
  by_cases h : e.2.objId = o
  · have hc : (e.2.objId == o) = true := by simp [h]
    rw [if_pos hc]
    unfold connProj
    dsimp only
    rw [(hf e.2).1, (hf e.2).2]
  · have hc : ¬ ((e.2.objId == o) = true) := by simp [h]
    rw [if_neg hc]

/-- The state of `execute` right after arming the timeout and inserting the
pending entry (before the send attempt resolves). -/
theorem inv_execute_s1 (s : Sys) (conn : Conn) (k0 : String) (id : String)
    (hk0 : (k0, conn) ∈ s.executors) (inv : Inv s) :
    Inv { s with
      timers := s.timers ++
        [{ handle := s.nextId + 1, connObj := conn.objId, reqId := id,
           promiseId := s.nextId }],
      executors := updConn s.executors conn.objId
        (fun c => { c with pending := (mapSet c.pending id
          { promiseId := s.nextId, timerId := s.nextId + 1 }) }),
      nextId := s.nextId + 2 } := by
  have hfreshProm : ∀ m ∈ allIds s, m ≠ s.nextId ∧ m ≠ s.nextId + 1 := by
    intro m hm
    have := inv.freshBound m hm
    omega
  refine ⟨?_, ?_, ?_, ?_, ?_, ?_, ?_, ?_, ?_, ?_⟩
  · exact inv.settledNodup
  · intro t ht
    rcases List.mem_append.mp ht with h | h
    · exact inv.timerUnsettled t h
    · rw [List.mem_singleton.mp h]
      intro hc
      exact (hfreshProm _ (mem_allIds_settled hc)).1 rfl
  · show ((s.timers ++
      [(⟨s.nextId + 1, conn.objId, id, s.nextId⟩ : Timer)]).map
        (fun t => t.promiseId)).Nodup
    rw [List.map_append]
    refine List.Nodup.append inv.timerPromNodup (by simp) ?_
    intro a ha hb
    simp only [List.map_cons, List.map_nil, List.mem_singleton] at hb
    obtain ⟨t, ht, hta⟩ := List.mem_map.mp ha
    exact (hfreshProm _ (mem_allIds_timerProm ht)).1 (by rw [hta, hb])
  · show ((s.timers ++
      [(⟨s.nextId + 1, conn.objId, id, s.nextId⟩ : Timer)]).map
        (fun t => t.handle)).Nodup
    rw [List.map_append]
    refine List.Nodup.append inv.timerHandleNodup (by simp) ?_
    intro a ha hb
    simp only [List.map_cons, List.map_nil, List.mem_singleton] at hb
    obtain ⟨t, ht, hta⟩ := List.mem_map.mp ha
    exact (hfreshProm _ (mem_allIds_timerHandle ht)).2 (by rw [hta, hb])
  · intro e' he' q' hq'
    have he2 : e' ∈ updConn s.executors conn.objId
        (fun c => { c with pending := (mapSet c.pending id
          { promiseId := s.nextId, timerId := s.nextId + 1 }) }) := he'
    obtain ⟨e, he, hcase⟩ := mem_updConn he2
    rcases hcase with ⟨heo, he'eq⟩ | ⟨heo, he'eq⟩
    · rw [he'eq] at hq'
      dsimp only at hq'
      rcases mem_mapSet hq' with h1 | ⟨h1, _⟩
      · refine ⟨(⟨s.nextId + 1, conn.objId, id, s.nextId⟩ : Timer),
          ?_, ?_, ?_, ?_, ?_⟩
        · exact List.mem_append.mpr (Or.inr (List.mem_singleton.mpr rfl))
        · rw [h1]
        · rw [h1]
        · rw [he'eq]
          dsimp only
          rw [heo]
        · rw [h1]
      · obtain ⟨t', ht', h'h, h'p, h'o, h'r⟩ := inv.pendingMatch e he q' h1
        refine ⟨t', List.mem_append.mpr (Or.inl ht'), h'h, h'p, ?_, h'r⟩
        rw [he'eq]
        exact h'o
    · rw [he'eq] at hq'
      obtain ⟨t', ht', h'h, h'p, h'o, h'r⟩ := inv.pendingMatch e he q' hq'
      exact ⟨t', List.mem_append.mpr (Or.inl ht'), h'h, h'p,
        by rw [he'eq]; exact h'o, h'r⟩
  · show ((updConn s.executors conn.objId
      (fun c => { c with pending := (mapSet c.pending id
        { promiseId := s.nextId, timerId := s.nextId + 1 }) })).flatMap
          (fun e => connPromises e.2)).Nodup
    unfold updConn
    rw [List.flatMap_map]
    have hchunks := List.nodup_flatMap.mp inv.pendingPromNodup
    refine List.nodup_flatMap.mpr ⟨?_, ?_⟩
    · intro e he
      by_cases heo : e.2.objId = conn.objId
      · simp only [heo, beq_self_eq_true, if_true]
        show ((mapSet e.2.pending id
          ({ promiseId := s.nextId, timerId := s.nextId + 1 })).map
            (fun q => q.2.promiseId)).Nodup
        refine nodup_map_mapSet (fun p : Pending => p.promiseId)
          (inv.pendingKeysNodup e he) (hchunks.1 e he) ?_
        intro hc
        obtain ⟨q, hq, hqn⟩ := List.mem_map.mp hc
        exact (hfreshProm _ (mem_allIds_pendingProm he hq)).1 hqn
      · simp only [beq_iff_eq, if_neg heo]
        exact hchunks.1 e he
    · have hop : List.Pairwise (fun a b : String × Conn =>
          (List.Disjoint on fun e => connPromises e.2) a b ∧
          a.2.objId ≠ b.2.objId) s.executors :=
        hchunks.2.and (List.pairwise_map.mp inv.objNodup)
      refine hop.imp_of_mem ?_
      intro a b ha hb hab
      obtain ⟨hdisj, hne⟩ := hab
      have hsplit : ∀ e ∈ s.executors, ∀ x,
          x ∈ connPromises ((if e.2.objId == conn.objId then
            (e.1, { e.2 with pending := (mapSet e.2.pending id
              { promiseId := s.nextId, timerId := s.nextId + 1 }) })
            else e) : String × Conn).2 →
          x ∈ connPromises e.2 ∨ (e.2.objId = conn.objId ∧ x = s.nextId) := by
        intro e _ x hx
        by_cases heo : e.2.objId = conn.objId
        · simp only [heo, beq_self_eq_true, if_true] at hx
          have hx2 : x ∈ (mapSet e.2.pending id
            ({ promiseId := s.nextId, timerId := s.nextId + 1 })).map
              (fun q => q.2.promiseId) := hx
          rcases mem_map_mapSet (fun p : Pending => p.promiseId) hx2
            with h | h
          · exact Or.inl h
          · exact Or.inr ⟨heo, h⟩
        · simp only [beq_iff_eq, if_neg heo] at hx
          exact Or.inl hx
      intro x hxa hxb
      rcases hsplit a ha x hxa with h1 | ⟨ho1, h1⟩
      · rcases hsplit b hb x hxb with h2 | ⟨_, h2⟩
        · exact hdisj h1 h2
        · obtain ⟨q, hq, hqn⟩ := List.mem_map.mp h1
          exact (hfreshProm _ (mem_allIds_pendingProm ha hq)).1 (by rw [hqn, h2])
      · rcases hsplit b hb x hxb with h2 | ⟨ho2, _⟩
        · obtain ⟨q, hq, hqn⟩ := List.mem_map.mp h2
          exact (hfreshProm _ (mem_allIds_pendingProm hb hq)).1 (by rw [hqn, h1])
        · exact hne (by rw [ho1, ho2])
  · show ((updConn s.executors conn.objId
      (fun c => { c with pending := (mapSet c.pending id
        { promiseId := s.nextId, timerId := s.nextId + 1 }) })).map
          (fun e => e.2.objId)).Nodup
    rw [updConn_objIds s.executors conn.objId
      (fun c => { c with pending := (mapSet c.pending id
        { promiseId := s.nextId, timerId := s.nextId + 1 }) })
      (fun c => rfl)]
    exact inv.objNodup
  · intro e' he'
    have he2 : e' ∈ updConn s.executors conn.objId
        (fun c => { c with pending := (mapSet c.pending id
          { promiseId := s.nextId, timerId := s.nextId + 1 }) }) := he'
    obtain ⟨e, he, hcase⟩ := mem_updConn he2
    rcases hcase with ⟨_, he'eq⟩ | ⟨_, he'eq⟩
    · rw [he'eq]
      dsimp only
      exact nodup_keys_mapSet _ (inv.pendingKeysNodup e he)
    · rw [he'eq]
      exact inv.pendingKeysNodup e he
  · show ((updConn s.executors conn.objId
      (fun c => { c with pending := (mapSet c.pending id
        { promiseId := s.nextId, timerId := s.nextId + 1 }) })).map
          (fun e => e.1)).Nodup
    rw [updConn_keys]
    exact inv.topKeysNodup
  · intro n hn
    show n < s.nextId + 2
    rcases mem_allIds_cases hn with h | ⟨t, ht, h⟩ | ⟨e', he', h⟩
    · have hb := inv.freshBound n (mem_allIds_settled h)
      omega
    · rcases List.mem_append.mp ht with htm | htm
      · have hb1 : n ∈ allIds s := by
          rcases h with h | h | h
          · exact h ▸ mem_allIds_timerProm htm
          · exact h ▸ mem_allIds_timerHandle htm
          · exact h ▸ mem_allIds_timerConnObj htm
        have hb := inv.freshBound n hb1
        omega
      · have htT : t = (⟨s.nextId + 1, conn.objId, id, s.nextId⟩ : Timer) :=
          List.mem_singleton.mp htm
        rcases h with h | h | h
        · have hn2 : n = s.nextId := by rw [h, htT]
          omega
        · have hn2 : n = s.nextId + 1 := by rw [h, htT]
          omega
        · have hn2 : n = conn.objId := by rw [h, htT]
          have hb : conn.objId < s.nextId :=
            inv.freshBound conn.objId (mem_allIds_objId hk0)
          omega
    · have he2 : e' ∈ updConn s.executors conn.objId
          (fun c => { c with pending := (mapSet c.pending id
            { promiseId := s.nextId, timerId := s.nextId + 1 }) }) := he'
      obtain ⟨e, he, hcase⟩ := mem_updConn he2
      rcases h with h | ⟨q', hq', h⟩
      · have hobj : e'.2.objId = e.2.objId := by
          rcases hcase with ⟨_, he'eq⟩ | ⟨_, he'eq⟩ <;> rw [he'eq]
        have hn2 : n = e.2.objId := by rw [h, hobj]
        have hb : e.2.objId < s.nextId :=
          inv.freshBound _ (mem_allIds_objId he)
        omega
      · have hq2 : q' ∈ e.2.pending ∨
            q' = (id, (⟨s.nextId, s.nextId + 1⟩ : Pending)) := by
          rcases hcase with ⟨_, he'eq⟩ | ⟨_, he'eq⟩
          · rw [he'eq] at hq'
            dsimp only at hq'
            rcases mem_mapSet hq' with h1 | ⟨h1, _⟩
            · exact Or.inr h1
            · exact Or.inl h1
          · rw [he'eq] at hq'
            exact Or.inl hq'
        rcases hq2 with hq2 | hq2
        · rcases h with h | h
          · have hb : q'.2.promiseId < s.nextId :=
              inv.freshBound _ (mem_allIds_pendingProm he hq2)
            omega
          · have hb : q'.2.timerId < s.nextId :=
              inv.freshBound _ (mem_allIds_pendingTimer he hq2)
            omega
        · rcases h with h | h
          · have hn2 : n = s.nextId := by rw [h, hq2]
            omega
          · have hn2 : n = s.nextId + 1 := by rw [h, hq2]
            omega

theorem inv_lastActive (s : Sys) (o : Nat) (now : Nat) (inv : Inv s) :
    Inv { s with
      executors := (updConn s.executors o
        (fun c => { c with lastActiveAt := now })) } :=
  inv_congr (updConn_connProj s.executors o _ (fun _ => ⟨rfl, rfl⟩)) inv

theorem inv_execute (s : Sys) (action : String) (params : Params)
    (executorId : Option String) (now : Nat) (rand : String)
    (sendErr : Option String) (inv : Inv s) :
    Inv (ExecutorManager.execute s action params executorId now rand
      sendErr).state := by
  unfold ExecutorManager.execute
  cases hget : ExecutorManager.getExecutor s executorId with
  | none => exact inv
  | some conn =>
    obtain ⟨k0, hk0⟩ := getExecutor_mem hget
    dsimp only
    have h1 := inv_execute_s1 s conn k0
      (ExecutorManager.genRequestId now rand) hk0 inv
    cases sendErr with
    | none =>
      dsimp only
      exact inv_lastActive _ conn.objId now h1
    | some msg =>
      dsimp only
      have hent1 : ((k0, { conn with pending := (mapSet conn.pending
          (ExecutorManager.genRequestId now rand)
          { promiseId := s.nextId, timerId := s.nextId + 1 }) }) :
            String × Conn) ∈
          updConn s.executors conn.objId
            (fun c => { c with pending := (mapSet c.pending
              (ExecutorManager.genRequestId now rand)
              { promiseId := s.nextId, timerId := s.nextId + 1 }) }) := by
        unfold updConn
        refine List.mem_map.mpr ⟨(k0, conn), hk0, ?_⟩
        simp
      exact inv_complete _ conn.objId
        (ExecutorManager.genRequestId now rand)
        (⟨s.nextId, s.nextId + 1⟩ : Pending)
        (Settlement.resolved (ExecutorManager.sendFailResult
          (ExecutorManager.genRequestId now rand) msg))
        _ hent1 rfl (mem_mapSet_self _ _ _) h1

theorem inv_handleResult (s : Sys) (r : ExecuteResult) (inv : Inv s) :
    Inv (ExecutorManager.handleResult s r) := by
  unfold ExecutorManager.handleResult
  cases hf : s.executors.find? (fun e => (mapGet e.2.pending r.id).isSome) with
  | none => exact inv
  | some e =>
    dsimp only
    cases hg : mapGet e.2.pending r.id with
    | none => exact inv
    | some p =>
      exact inv_complete s e.2.objId r.id p (Settlement.resolved r) e
        (List.mem_of_find?_eq_some hf) rfl (mapGet_eq_some_mem hg) inv

theorem inv_default (s : Sys) (d : Option String) (inv : Inv s) :
    Inv { s with defaultExecutorId := d } :=
  ⟨inv.settledNodup, inv.timerUnsettled, inv.timerPromNodup,
   inv.timerHandleNodup, inv.pendingMatch, inv.pendingPromNodup,
   inv.objNodup, inv.pendingKeysNodup, inv.topKeysNodup, inv.freshBound⟩

theorem inv_setDefault (s : Sys) (eid : String) (inv : Inv s) :
    Inv (ExecutorManager.setDefault s eid).1 := by
  unfold ExecutorManager.setDefault
  by_cases hs : (mapGet s.executors eid).isSome
  · rw [if_pos hs]
    exact inv_default s (some eid) inv
  · rw [if_neg hs]
    exact inv

theorem inv_updateState (s : Sys) (eid : String) (meta : Params) (now : Nat)
    (inv : Inv s) : Inv (ExecutorManager.updateState s eid meta now) := by
  unfold ExecutorManager.updateState
  cases mapGet s.executors eid with
  | none => exact inv
  | some conn =>
    dsimp only
    exact inv_congr (updConn_connProj s.executors conn.objId _
      (fun _ => ⟨rfl, rfl⟩)) inv

theorem inv_handlePong (s : Sys) (eid : String) (now : Nat) (inv : Inv s) :
    Inv (ExecutorManager.handlePong s eid now) := by
  unfold ExecutorManager.handlePong
  cases mapGet s.executors eid with
  | none => exact inv
  | some conn =>
    dsimp only
    exact inv_congr (updConn_connProj s.executors conn.objId _
      (fun _ => ⟨rfl, rfl⟩)) inv

theorem inv_unregisterByWs (s : Sys) (ws : Nat) (inv : Inv s) :
    Inv (ExecutorManager.unregisterByWs s ws) := by
  unfold ExecutorManager.unregisterByWs
  cases s.executors.find? (fun e => e.2.ws == ws) with
  | none => exact inv
  | some e => exact inv_unregister s e.1 inv

theorem inv_init : Inv initState := by
  refine ⟨?_, ?_, ?_, ?_, ?_, ?_, ?_, ?_, ?_, ?_⟩ <;>
    simp [initState, settledIds, timerPromises, timerHandles,
      pendingPromises, allIds, connPromises]

theorem inv_step {s s' : Sys} (st : Step s s') (inv : Inv s) : Inv s' := by
  cases st with
  | ofRegister ws info now => exact inv_register s ws info now inv
  | ofUnregister eid => exact inv_unregister s eid inv
  | ofUnregisterByWs ws => exact inv_unregisterByWs s ws inv
  | ofSetDefault eid => exact inv_setDefault s eid inv
  | ofExecute action params executorId now rand sendErr =>
    exact inv_execute s action params executorId now rand sendErr inv
  | ofHandleResult r => exact inv_handleResult s r inv
  | ofTimerFire t ht => exact inv_timerFire s t ht inv
  | ofCheckConnections now => exact inv
  | ofUpdateState eid meta now => exact inv_updateState s eid meta now inv
  | ofPong eid now => exact inv_handlePong s eid now inv

theorem inv_reachable {s : Sys} (h : Reachable s) : Inv s := by
  induction h with
  | init => exact inv_init
  | step _ st ih => exact inv_step st ih

/-! Development for claim C8: the correlation id
`` `req_${Date.now()}_${Math.random().toString(36).slice(2, 8)}` `` is a
pure function of the timestamp and the random suffix — injective as a pair,
and nothing more: two calls sharing both inputs produce identical ids. -/

theorem string_ext {a b : String} (h : a.data = b.data) : a = b := by
  cases a; cases b; exact congrArg String.mk h

theorem digitChar_isDigit {m : Nat} (h : m < 10) :
    (Nat.digitChar m).isDigit = true := by
  interval_cases m <;> decide

theorem toDigitsCore_isDigit :
    ∀ (f n : Nat) (l : List Char), (∀ c ∈ l, c.isDigit = true) →
    ∀ c ∈ Nat.toDigitsCore 10 f n l, c.isDigit = true := by
  intro f
  induction f with
  | zero => exact fun n l hl c hc => hl c hc
  | succ f ih =>
    intro n l hl c hc
    rw [show Nat.toDigitsCore 10 (f + 1) n l =
        (if n / 10 = 0 then Nat.digitChar (n % 10) :: l
         else Nat.toDigitsCore 10 f (n / 10)
           (Nat.digitChar (n % 10) :: l)) from by simp [Nat.toDigitsCore]]
      at hc
    have hcons : ∀ c ∈ Nat.digitChar (n % 10) :: l, c.isDigit = true := by
      intro c hc
      rcases List.mem_cons.mp hc with h | h
      · rw [h]
        exact digitChar_isDigit (Nat.mod_lt n (by decide))
      · exact hl c h
    by_cases hnb : n / 10 = 0
    · rw [if_pos hnb] at hc
      exact hcons c hc
    · rw [if_neg hnb] at hc
      exact ih (n / 10) _ hcons c hc

theorem repr_isDigit (n : Nat) : ∀ c ∈ (Nat.repr n).data, c.isDigit = true :=
  toDigitsCore_isDigit (n + 1) n [] (by simp)

/-- Decimal value of a digit character. -/
def digitVal (c : Char) : Nat := c.toNat - '0'.toNat

/-- Value of a digit string, most significant first. -/
def listVal (l : List Char) : Nat :=
  l.foldl (fun a c => 10 * a + digitVal c) 0

theorem foldl_val_from (a : Nat) (l : List Char) :
    l.foldl (fun a c => 10 * a + digitVal c) a =
      a * 10 ^ l.length + l.foldl (fun a c => 10 * a + digitVal c) 0 := by
  induction l generalizing a with
  | nil => simp
  | cons c l ih =>
    simp only [List.foldl_cons, List.length_cons]
    rw [ih (10 * a + digitVal c), ih (10 * 0 + digitVal c)]
    ring

theorem listVal_cons (c : Char) (l : List Char) :
    listVal (c :: l) = digitVal c * 10 ^ l.length + listVal l := by
  unfold listVal
  simp only [List.foldl_cons]
  rw [foldl_val_from (10 * 0 + digitVal c) l]
  ring

theorem digitVal_digitChar {m : Nat} (h : m < 10) :
    digitVal (Nat.digitChar m) = m := by
  interval_cases m <;> decide

theorem toDigitsCore_val :
    ∀ (f n : Nat) (l : List Char), n < 10 ^ f →
    listVal (Nat.toDigitsCore 10 f n l) = n * 10 ^ l.length + listVal l := by
  intro f
  induction f with
  | zero =>
    intro n l hn
    have hz : n = 0 := by omega
    subst hz
    show listVal l = 0 * 10 ^ l.length + listVal l
    simp
  | succ f ih =>
    intro n l hn
    rw [show Nat.toDigitsCore 10 (f + 1) n l =
        (if n / 10 = 0 then Nat.digitChar (n % 10) :: l
         else Nat.toDigitsCore 10 f (n / 10)
           (Nat.digitChar (n % 10) :: l)) from by simp [Nat.toDigitsCore]]
    have hval : listVal (Nat.digitChar (n % 10) :: l) =
        (n % 10) * 10 ^ l.length + listVal l := by
      rw [listVal_cons, digitVal_digitChar (Nat.mod_lt n (by decide))]
    by_cases hnb : n / 10 = 0
    · rw [if_pos hnb, hval]
      have : n % 10 = n := by omega
      rw [this]
    · rw [if_neg hnb]
      have hlt : n / 10 < 10 ^ f := by
        have h10 : (10 : Nat) ^ (f + 1) = 10 ^ f * 10 := by ring
        rw [h10] at hn
        exact Nat.div_lt_of_lt_mul (by omega)
      rw [ih (n / 10) _ hlt, hval]
      simp only [List.length_cons]
      have hmod := Nat.div_add_mod n 10
      have hpow : (10 : Nat) ^ (l.length + 1) = 10 * 10 ^ l.length := by ring
      rw [hpow]
      conv_rhs => rw [← hmod]
      ring

theorem listVal_repr (n : Nat) : listVal (Nat.repr n).data = n := by
  have hd : (Nat.repr n).data = Nat.toDigitsCore 10 (n + 1) n [] := rfl
  rw [hd]
  have hlt : n < 10 ^ (n + 1) :=
    lt_of_lt_of_le (Nat.lt_pow_self (by decide) n)
      (Nat.pow_le_pow_right (by decide) (Nat.le_succ n))
  rw [toDigitsCore_val (n + 1) n [] hlt]
  simp [listVal]

theorem repr_inj {m n : Nat} (h : Nat.repr m = Nat.repr n) : m = n := by
  have := congrArg (fun s => listVal s.data) h
  simpa [listVal_repr] using this

theorem append_underscore_inj :
    ∀ (a1 a2 b1 b2 : List Char), '_' ∉ a1 → '_' ∉ a2 →
    a1 ++ '_' :: b1 = a2 ++ '_' :: b2 → a1 = a2 ∧ b1 = b2 := by
  intro a1
  induction a1 with
  | nil =>
    intro a2 b1 b2 _ h2 heq
    cases a2 with
    | nil =>
      simp only [List.nil_append] at heq
      injection heq with _ hb
      exact ⟨rfl, hb⟩
    | cons c a2 =>
      simp only [List.nil_append, List.cons_append] at heq
      injection heq with hc _
      exact absurd (hc ▸ List.mem_cons_self c a2) h2
  | cons c a1 ih =>
    intro a2 b1 b2 h1 h2 heq
    cases a2 with
    | nil =>
      simp only [List.cons_append, List.nil_append] at heq
      injection heq with hc _
      exact absurd (hc.symm ▸ List.mem_cons_self c a1) h1
    | cons c2 a2 =>
      simp only [List.cons_append] at heq
      injection heq with hc htail
      have h1' : '_' ∉ a1 := fun hm => h1 (List.mem_cons_of_mem c hm)
      have h2' : '_' ∉ a2 := fun hm => h2 (List.mem_cons_of_mem c2 hm)
      obtain ⟨ha, hb⟩ := ih a2 b1 b2 h1' h2' htail
      exact ⟨by rw [hc, ha], hb⟩

theorem not_underscore_repr (n : Nat) : '_' ∉ (Nat.repr n).data := by
  intro hm
  have := repr_isDigit n '_' hm
  simp at this

theorem genRequestId_inj {t1 t2 : Nat} {r1 r2 : String}
    (h : ExecutorManager.genRequestId t1 r1 =
      ExecutorManager.genRequestId t2 r2) : t1 = t2 ∧ r1 = r2 := by
  unfold ExecutorManager.genRequestId at h
  have hd := congrArg String.data h
  simp only [String.data_append] at hd
  simp only [List.append_assoc, List.cons_append, List.nil_append,
    List.cons.injEq, eq_self_iff_true, true_and] at hd
  obtain ⟨ha, hb⟩ := append_underscore_inj (Nat.repr t1).data
    (Nat.repr t2).data r1.data r2.data (not_underscore_repr t1)
    (not_underscore_repr t2) hd
  constructor
  · exact repr_inj (string_ext ha)
  · exact string_ext hb

/-! Helpers for claims C7, C9 and C10. -/

theorem checkConnectionsLoop_eq (now : Nat) (l : List (String × Conn)) :
    ExecutorManager.checkConnectionsLoop now l =
      (l.filter (fun e =>
        decide (HEARTBEAT_TIMEOUT < now - e.2.lastActiveAt))).map
          (fun e => ExecutorManager.sendPing e.2) := by
  induction l with
  | nil => rfl
  | cons e l ih =>
    unfold ExecutorManager.checkConnectionsLoop
    by_cases h : HEARTBEAT_TIMEOUT < now - e.2.lastActiveAt
    · have hd : decide (HEARTBEAT_TIMEOUT < now - e.2.lastActiveAt) = true :=
        by simp [h]
      rw [if_pos h]
      simp only [List.filter_cons]
      rw [if_pos hd, List.map_cons, ih]
    · have hd : decide (HEARTBEAT_TIMEOUT < now - e.2.lastActiveAt) = false :=
        by simp [h]
      rw [if_neg h]
      simp only [List.filter_cons]
      rw [if_neg (by simp [hd])]
      exact ih

theorem updConn_updConn (l : List (String × Conn)) (o : Nat)
    (f g : Conn → Conn) (hf : ∀ c, (f c).objId = c.objId) :
    updConn (updConn l o f) o g = updConn l o (fun c => g (f c)) := by
  unfold updConn
  rw [List.map_map]
  apply List.map_congr_left
  intro e _
  by_cases h : e.2.objId = o
  · have hc : (e.2.objId == o) = true := by simp [h]
    simp only [Function.comp, hc, if_true]
    have hc2 : ((f e.2).objId == o) = true := by simp [hf e.2, h]
    simp only [hc2, if_true]
  · have hc : ¬ ((e.2.objId == o) = true) := by simp [h]
    simp only [Function.comp, if_neg hc]

theorem filter_ne_map_set {α : Type} (m : List (String × α)) (k : String)
    (v : α) :
    List.filter (fun e => e.1 != k)
      (m.map (fun e => if e.1 == k then (k, v) else e)) =
    List.filter (fun e => e.1 != k) m := by
  induction m with
  | nil => rfl
  | cons e m ih =>
    simp only [List.map_cons, List.filter_cons]
    by_cases hek : e.1 = k
    · have hc : (e.1 == k) = true := by simp [hek]
      rw [if_pos hc]
      have h1 : (((k, v) : String × α).1 != k) = false := by simp
      have h2 : (e.1 != k) = false := by simp [hek]
      rw [h1, h2]
      simp only [Bool.false_eq_true, if_false]
      exact ih
    · have hc : ¬ ((e.1 == k) = true) := by simp [hek]
      rw [if_neg hc]
      have h2 : (e.1 != k) = true := by simp [hek]
      rw [h2]
      simp only [if_true]
      rw [ih]

theorem mapDelete_mapSet {α : Type} (m : List (String × α)) (k : String)
    (v : α) : mapDelete (mapSet m k v) k = mapDelete m k := by
  cases hany : m.any (fun e => e.1 == k) with
  | true =>
    simp only [mapSet, hany, if_true]
    exact filter_ne_map_set m k v
  | false =>
    simp only [mapSet, hany, Bool.false_eq_true, if_false]
    unfold mapDelete
    rw [List.filter_append]
    have : List.filter (fun e => e.1 != k) [(k, v)] = [] := by simp
    rw [this, List.append_nil]

theorem mapDelete_eq_self {α : Type} {m : List (String × α)} {k : String}
    (h : ∀ e ∈ m, e.1 ≠ k) : mapDelete m k = m := by
  unfold mapDelete
  rw [List.filter_eq_self]
  intro e he
  simp [h e he]

theorem updConn_restore (l : List (String × Conn)) (o : Nat) (k : String)
    (v : Pending)
    (hfresh : ∀ e ∈ l, e.2.objId = o → ∀ q ∈ e.2.pending, q.1 ≠ k) :
    updConn l o (fun c =>
      { c with pending := mapDelete (mapSet c.pending k v) k }) = l := by
  unfold updConn
  calc l.map (fun e => if e.2.objId == o then
        (e.1, { e.2 with pending := mapDelete (mapSet e.2.pending k v) k })
        else e)
      = l.map id := by
        apply List.map_congr_left
        intro e he
        by_cases h : e.2.objId = o
        · have hc : (e.2.objId == o) = true := by simp [h]
          rw [if_pos hc]
          have hp : mapDelete (mapSet e.2.pending k v) k = e.2.pending := by
            rw [mapDelete_mapSet]
            exact mapDelete_eq_self (fun q hq => hfresh e he h q hq)
          rw [hp]
          rfl
        · have hc : ¬ ((e.2.objId == o) = true) := by simp [h]
          rw [if_neg hc]
          rfl
    _ = l := List.map_id l

theorem mapGet_mapSet_self {α : Type} (m : List (String × α)) (k : String)
    (v : α) : mapGet (mapSet m k v) k = some v := by
  cases hany : m.any (fun e => e.1 == k) with
  | true =>
    simp only [mapSet, hany, if_true]
    simp only [List.any_eq_true, beq_iff_eq] at hany
    unfold mapGet
    induction m with
    | nil => simp at hany
    | cons e m ih =>
      simp only [List.map_cons]
      by_cases hek : e.1 = k
      · have hc : (e.1 == k) = true := by simp [hek]
        rw [if_pos hc]
        rw [List.find?_cons]
        simp
      · have hc : ¬ ((e.1 == k) = true) := by simp [hek]
        rw [if_neg hc]
        rw [List.find?_cons]
        have hcf : (e.1 == k) = false := by simp [hek]
        rw [hcf]
        rcases hany with ⟨e0, he0, hk0⟩
        rcases List.mem_cons.mp he0 with h0 | h0
        · rw [h0] at hk0; exact absurd hk0 hek
        · exact ih ⟨e0, h0, hk0⟩
  | false =>
    rw [mapSet_of_not_mem v (by
      intro hc
      obtain ⟨e, he, hk⟩ := List.mem_map.mp hc
      simp only [List.any_eq_false, beq_iff_eq] at hany
      exact hany e he hk)]
    unfold mapGet
    induction m with
    | nil => simp
    | cons e m ih =>
      simp only [List.any_eq_false, beq_iff_eq] at hany
      have hek : ¬ (e.1 = k) := hany e (List.mem_cons_self e m)
      have hc : ¬ ((e.1 == k) = true) := by simp [hek]
      have hcf : (e.1 == k) = false := by simp [hek]
      simp only [List.cons_append]
      rw [List.find?_cons, hcf]
      exact ih (by
        simp only [List.any_eq_false, beq_iff_eq]
        intro e2 he2
        exact hany e2 (List.mem_cons_of_mem e he2))

/-! Concrete scenario used by witnesses and counterexamples: register
executor `"a"` on transport handle 1 at time 0, then execute one command at
time 5 with random suffix `"abcdef"` (the send succeeds), leaving one
pending request `req_5_abcdef` with promise 1 and timeout handle 2. -/

/-- Registration payload of the scenario executor. -/
def infoA : ExecutorRegister :=
  { executorId := "a", platform := "browser", capabilities := ["click"],
    meta := [] }

/-- State after registering `"a"`. -/
def sReg : Sys := (ExecutorManager.register initState 1 infoA 0).1

/-- Output of the first `execute` call. -/
def execOut1 : ExecutorManager.ExecOut :=
  ExecutorManager.execute sReg "click" [] none 5 "abcdef" none

/-- State with one pending request on `"a"`. -/
def sPend : Sys := execOut1.state

/-- The armed timeout of the pending request in `sPend`. -/
def timerA : Timer :=
  { handle := 2, connObj := 0, reqId := "req_5_abcdef", promiseId := 1 }

/-- The connection object of `"a"` as it stands in `sPend`. -/
def connA : Conn :=
  { objId := 0, ws := 1, info := infoA, connectedAt := 0, lastActiveAt := 5,
    pending := [("req_5_abcdef", ⟨1, 2⟩)] }

/-- C1 (counterexample): the claim says re-registering an `executorId` that
has pending requests fails all of them with a Superseded failure within the
`register` call, leaving none to be resolved later by timeout.  At this
concrete input the old connection `"a"` has one pending request; after
`register` runs, the settlement log is still empty (no request was failed
during the call), the old timeout is still armed, and firing it resolves
the request with the ordinary timeout Result — exactly the late timeout
resolution the claim rules out. -/
theorem register_supersede_cex :
    (mapGet sPend.executors "a").map (fun c => c.pending.map (fun q => q.1)) =
      some ["req_5_abcdef"] ∧
    (ExecutorManager.register sPend 2 infoA 10).1.settled =
      ([] : List (Nat × Settlement)) ∧
    timerA ∈ (ExecutorManager.register sPend 2 infoA 10).1.timers ∧
    (ExecutorManager.timerFire (ExecutorManager.register sPend 2 infoA 10).1
      timerA).settled =
      [(1, Settlement.resolved
        { id := "req_5_abcdef", success := false, data := none,
          error := some "Request timeout after 30000ms" })] := by
  decide

/-- C1 (amended): re-registering an `executorId` closes the previous
connection's transport handle (the returned handle) and replaces the
registry entry, but it does not fail any pending request of the old
connection: the settlement log and the armed-timer set are unchanged by the
`register` call, and each old pending request is later resolved by its own
timeout with an ordinary timeout Result (not a Superseded failure). -/
theorem register_does_not_fail_pending (s : Sys) (ws : Nat)
    (info : ExecutorRegister) (now : Nat) :
    (ExecutorManager.register s ws info now).1.settled = s.settled ∧
    (ExecutorManager.register s ws info now).1.timers = s.timers ∧
    (ExecutorManager.register s ws info now).2 =
      (mapGet s.executors info.executorId).map (fun c => c.ws) ∧
    (∀ t ∈ s.timers,
      (ExecutorManager.timerFire
        (ExecutorManager.register s ws info now).1 t).settled =
        s.settled ++ [(t.promiseId, Settlement.resolved
          (ExecutorManager.timeoutResult t.reqId))]) := by
  exact ⟨rfl, rfl, rfl, fun t _ => rfl⟩

/-- C1 (witness for the amended theorem) at the concrete scenario. -/
theorem register_does_not_fail_pending_witness :
    timerA ∈ sPend.timers ∧
    (ExecutorManager.register sPend 2 infoA 10).1.settled = sPend.settled ∧
    (ExecutorManager.timerFire (ExecutorManager.register sPend 2 infoA 10).1
      timerA).settled =
      sPend.settled ++ [(timerA.promiseId, Settlement.resolved
        (ExecutorManager.timeoutResult timerA.reqId))] :=
  ⟨by decide, (register_does_not_fail_pending sPend 2 infoA 10).1,
    (register_does_not_fail_pending sPend 2 infoA 10).2.2.2 timerA
      (by decide)⟩

/-- C2 (counterexample): the claim says `execute` never rejects, and that
unregistering a connection resolves its pending futures with
Disconnected-flavored failure Results.  At this concrete input,
unregistering `"a"` with one pending request settles its promise by
calling `reject` with `Error("Executor disconnected")` — a rejection, which
is not `resolve` of any Result value, so the promise returned by `execute`
rejects. -/
theorem unregister_rejects_cex :
    (ExecutorManager.unregister sPend "a").settled =
      [(1, Settlement.rejected "Executor disconnected")] ∧
    ∀ r : ExecuteResult,
      Settlement.rejected "Executor disconnected" ≠ Settlement.resolved r := by
  refine ⟨by decide, ?_⟩
  intro r h
  exact Settlement.noConfusion h

/-- C2 (amended): `execute` surfaces the ordinary failure modes as resolved
Results — no executor (immediate failure Result), timeout (resolved timeout
Result), synchronous send failure (resolved send-failure Result), and an
executor-reported failure (the inbound Result resolved verbatim) — but
connection loss is the exception: `unregister` rejects all N pending
futures with `Error("Executor disconnected")` in the same logical step,
clearing their timeouts (none left to time out). -/
theorem execute_failures_as_results (s : Sys) (action : String)
    (params : Params) (eid : Option String) (now : Nat) (rand : String)
    (msg : String) (r : ExecuteResult) (t : Timer) (k : String)
    (conn : Conn) :
    (ExecutorManager.getExecutor s eid = none →
      (ExecutorManager.execute s action params eid now rand none).ret =
        Sum.inl { id := "", success := false, data := none,
                  error := some (ExecutorManager.noExecutorError eid) }) ∧
    ((ExecutorManager.timerFire s t).settled =
      s.settled ++ [(t.promiseId, Settlement.resolved
        (ExecutorManager.timeoutResult t.reqId))]) ∧
    (ExecutorManager.getExecutor s eid = some conn →
      (ExecutorManager.execute s action params eid now rand
        (some msg)).state.settled =
        s.settled ++ [(s.nextId, Settlement.resolved
          (ExecutorManager.sendFailResult
            (ExecutorManager.genRequestId now rand) msg))]) ∧
    (∀ e p,
      s.executors.find? (fun e2 => (mapGet e2.2.pending r.id).isSome) =
        some e →
      mapGet e.2.pending r.id = some p →
      (ExecutorManager.handleResult s r).settled =
        s.settled ++ [(p.promiseId, Settlement.resolved r)]) ∧
    (mapGet s.executors k = some conn →
      (ExecutorManager.unregister s k).settled =
        s.settled ++ conn.pending.map (fun q =>
          (q.2.promiseId, Settlement.rejected "Executor disconnected")) ∧
      (ExecutorManager.unregister s k).timers =
        s.timers.filter (fun t2 =>
          !(conn.pending.any (fun q => q.2.timerId == t2.handle)))) := by
  refine ⟨?_, rfl, ?_, ?_, ?_⟩
  · intro h
    unfold ExecutorManager.execute
    rw [h]
  · intro h
    unfold ExecutorManager.execute
    rw [h]
  · intro e p hf hg
    unfold ExecutorManager.handleResult
    rw [hf]
    dsimp only
    rw [hg]
  · intro h
    unfold ExecutorManager.unregister
    rw [h]
    exact ⟨rfl, rfl⟩

/-- C2 (witness for the amended theorem): concrete no-executor call and
concrete unregister-with-pending. -/
theorem execute_failures_as_results_witness :
    (ExecutorManager.execute initState "click" [] none 5 "abcdef" none).ret =
      Sum.inl { id := "", success := false, data := none,
                error := some "No executor connected" } ∧
    (ExecutorManager.unregister sPend "a").settled =
      [(1, Settlement.rejected "Executor disconnected")] := by
  constructor
  · exact (execute_failures_as_results initState "click" [] none 5 "abcdef"
      "m" { id := "", success := false } (⟨0, 0, "", 0⟩ : Timer) "a"
      connA).1 (by decide)
  · exact ((execute_failures_as_results sPend "click" [] none 5 "abcdef"
      "m" { id := "", success := false } (⟨0, 0, "", 0⟩ : Timer) "a"
      connA).2.2.2.2 (by decide)).1

/-- C3: for every reachable registry state (in particular every state
reachable by register, unregister and setDefault operations from the empty
registry — the full step relation includes these three), the default
pointer is unset exactly when the connection set is empty, and when set it
names a currently registered connection. -/
theorem default_executor_invariant (s : Sys) (h : Reachable s) :
    (s.defaultExecutorId = none ↔ s.executors = []) ∧
    (∀ d, s.defaultExecutorId = some d →
      d ∈ s.executors.map (fun e => e.1)) :=
  defaultInv_reachable h

/-- C3 (witness) at the one-executor state. -/
theorem default_executor_invariant_witness :
    (sReg.defaultExecutorId = none ↔ sReg.executors = []) ∧
    (∀ d, sReg.defaultExecutorId = some d →
      d ∈ sReg.executors.map (fun e => e.1)) :=
  default_executor_invariant sReg
    (Reachable.step Reachable.init (Step.ofRegister initState 1 infoA 0))

/-- C4: in every reachable state the settlement log contains each promise
at most once (each `resolve`/`reject` invocation is recorded, so no
PendingRequest is ever settled twice by any interleaving of the three race
arms), every pending map entry still has its matching timeout armed (so the
timeout arm stays enabled until one arm fires — each arm removes the entry
and disarms the timer, deactivating the other two), and every armed timer
points at a promise that is still unsettled. -/
theorem pending_settled_exactly_once (s : Sys) (h : Reachable s) :
    (settledIds s).Nodup ∧
    (∀ e ∈ s.executors, ∀ q ∈ e.2.pending, ∃ t ∈ s.timers,
      t.handle = q.2.timerId ∧ t.promiseId = q.2.promiseId ∧
      t.connObj = e.2.objId ∧ t.reqId = q.1) ∧
    (∀ t ∈ s.timers, t.promiseId ∉ settledIds s) := by
  have inv := inv_reachable h
  exact ⟨inv.settledNodup, inv.pendingMatch, inv.timerUnsettled⟩

/-- C4 (witness) at the one-pending-request state. -/
theorem pending_settled_exactly_once_witness :
    (settledIds sPend).Nodup ∧
    (∀ e ∈ sPend.executors, ∀ q ∈ e.2.pending, ∃ t ∈ sPend.timers,
      t.handle = q.2.timerId ∧ t.promiseId = q.2.promiseId ∧
      t.connObj = e.2.objId ∧ t.reqId = q.1) ∧
    (∀ t ∈ sPend.timers, t.promiseId ∉ settledIds sPend) :=
  pending_settled_exactly_once sPend
    (Reachable.step
      (Reachable.step Reachable.init (Step.ofRegister initState 1 infoA 0))
      (Step.ofExecute sReg "click" [] none 5 "abcdef" none))

/-- C5: firing the armed timeout of a request removes the pending entry
from the connection object it captured and resolves the future with a
failure Result (not an exception) whose error message carries the
configured bound — `"Request timeout after 30000ms"` with
`requestTimeout = 30000` — and a reply whose id matches no pending entry
(in particular one arriving after the timeout already fired and removed the
entry) is dropped by `handleResult` with the state completely unchanged. -/
theorem timeout_resolves_then_late_reply_dropped (s : Sys) (t : Timer)
    (r : ExecuteResult) (ht : t ∈ s.timers) :
    (ExecutorManager.timerFire s t).settled =
      s.settled ++ [(t.promiseId, Settlement.resolved
        { id := t.reqId, success := false, data := none,
          error := some "Request timeout after 30000ms" })] ∧
    (ExecutorManager.timerFire s t).executors =
      updConn s.executors t.connObj
        (fun c => { c with pending := mapDelete c.pending t.reqId }) ∧
    requestTimeout = 30000 ∧
    (s.executors.find? (fun e => (mapGet e.2.pending r.id).isSome) = none →
      ExecutorManager.handleResult s r = s) := by
  have hmsg : "Request timeout after " ++ Nat.repr requestTimeout ++ "ms" =
      "Request timeout after 30000ms" := by decide
  have htr : ExecutorManager.timeoutResult t.reqId =
      { id := t.reqId, success := false, data := none,
        error := some "Request timeout after 30000ms" } := by
    unfold ExecutorManager.timeoutResult
    rw [hmsg]
  refine ⟨?_, rfl, rfl, ?_⟩
  · show s.settled ++ [(t.promiseId, Settlement.resolved
      (ExecutorManager.timeoutResult t.reqId))] = _
    rw [htr]
  · intro h
    unfold ExecutorManager.handleResult
    rw [h]

/-- C5 (witness): the pending request of the scenario times out with the
30000 ms message, and a reply with an unknown id is dropped without any
state change. -/
theorem timeout_resolves_then_late_reply_dropped_witness :
    timerA ∈ sPend.timers ∧
    (ExecutorManager.timerFire sPend timerA).settled =
      sPend.settled ++ [(timerA.promiseId, Settlement.resolved
        { id := timerA.reqId, success := false, data := none,
          error := some "Request timeout after 30000ms" })] ∧
    ExecutorManager.handleResult sPend
      { id := "nope", success := true, data := none, error := none } =
      sPend := by
  refine ⟨by decide, ?_, ?_⟩
  · exact (timeout_resolves_then_late_reply_dropped sPend timerA
      { id := "nope", success := true } (by decide)).1
  · exact (timeout_resolves_then_late_reply_dropped sPend timerA
      { id := "nope", success := true } (by decide)).2.2.2 (by decide)

/-- C6 (counterexample): the claim says that whenever a target id was given
and no matching executor exists, the error is
`"Executor not found: <executorId>"`.  Calling `execute` with the explicit
target id `""` (given, and matching no registry entry — the registry is
empty) produces `"No executor connected"` instead: the empty string is
falsy, so `executorId || this.defaultExecutorId` discards it and the
no-target branch is taken. -/
theorem empty_executor_id_cex :
    (ExecutorManager.execute initState "click" [] (some "") 5 "x" none).ret =
      Sum.inl { id := "", success := false, data := none,
                error := some "No executor connected" } ∧
    mapGet initState.executors "" = none ∧
    "No executor connected" ≠ "Executor not found: " ++ "" := by
  decide

/-- C6 (amended): when `getExecutor` finds no connection, `execute` returns
an immediate failure Result with empty id and no state change or send; the
error message is `"Executor not found: <executorId>"` when a non-empty
target id was given (lookup then being a plain registry lookup of that id)
and `"No executor connected"` when the target id was omitted or empty (the
empty string being falsy in the `executorId || defaultExecutorId` fallback,
so an explicit empty id falls back to the default). -/
theorem no_target_failure (s : Sys) (action : String) (params : Params)
    (now : Nat) (rand : String) (se : Option String) (eid : Option String)
    (e : String) :
    (ExecutorManager.getExecutor s eid = none →
      (ExecutorManager.execute s action params eid now rand se).ret =
        Sum.inl { id := "", success := false, data := none,
                  error := some (ExecutorManager.noExecutorError eid) } ∧
      (ExecutorManager.execute s action params eid now rand se).state = s ∧
      (ExecutorManager.execute s action params eid now rand se).sent =
        []) ∧
    (e ≠ "" → ExecutorManager.noExecutorError (some e) =
      "Executor not found: " ++ e) ∧
    ExecutorManager.noExecutorError none = "No executor connected" ∧
    ExecutorManager.noExecutorError (some "") = "No executor connected" ∧
    (e ≠ "" →
      ExecutorManager.getExecutor s (some e) = mapGet s.executors e) := by
  refine ⟨?_, ?_, rfl, rfl, ?_⟩
  · intro h
    unfold ExecutorManager.execute
    rw [h]
    exact ⟨rfl, rfl, rfl⟩
  · intro he
    have hb : (e == "") = false := by simp [he]
    unfold ExecutorManager.noExecutorError
    dsimp only
    rw [hb]
    rfl
  · intro he
    have hb : (e == "") = false := by simp [he]
    have hj : jsOrString (some e) s.defaultExecutorId = some e := by
      show (if e == "" then s.defaultExecutorId else some e) = some e
      rw [hb]
      rfl
    unfold ExecutorManager.getExecutor
    rw [hj]
    dsimp only
    rw [hb]
    rfl

/-- C6 (witness for the amended theorem): a non-empty unknown target id
produces the not-found message. -/
theorem no_target_failure_witness :
    (ExecutorManager.execute initState "click" [] (some "b") 5 "x"
      none).ret =
      Sum.inl { id := "", success := false, data := none,
                error := some (ExecutorManager.noExecutorError
                  (some "b")) } ∧
    ExecutorManager.noExecutorError (some "b") =
      "Executor not found: " ++ "b" := by
  constructor
  · exact ((no_target_failure initState "click" [] 5 "x" none (some "b")
      "b").1 (by decide)).1
  · exact (no_target_failure initState "click" [] 5 "x" none (some "b")
      "b").2.1 (by decide)

/-- C7 (counterexample): the claim says that when the synchronous send
throws, the pending map is exactly as before the call and the generated id
can never later time out.  At this concrete input the freshly generated id
collides with the one already pending (same timestamp and random suffix):
the `set` overwrites the old entry and the `delete` then removes it, so the
pending map ends up empty instead of containing the old entry — and the old
timeout for that id is still armed. -/
theorem send_throw_collision_cex :
    (mapGet sPend.executors "a").map (fun c => c.pending) =
      some [("req_5_abcdef", (⟨1, 2⟩ : Pending))] ∧
    (mapGet (ExecutorManager.execute sPend "click2" [] none 5 "abcdef"
      (some "boom")).state.executors "a").map (fun c => c.pending) =
      some [] ∧
    timerA ∈ (ExecutorManager.execute sPend "click2" [] none 5 "abcdef"
      (some "boom")).state.timers := by
  decide

/-- C7 (amended): when the send throws and the freshly generated id does
not collide with any id already pending on the target connection, the
entry added for it is removed again so the registry is exactly as before
the call, the timeout armed for it is disarmed (every timer left armed was
armed before the call, so the new id cannot later time out), and the
future resolves with the send-failure Result carrying the thrown message. -/
theorem send_throw_restores_pending (s : Sys) (action : String)
    (params : Params) (eid : Option String) (now : Nat) (rand : String)
    (msg : String) (conn : Conn)
    (hget : ExecutorManager.getExecutor s eid = some conn)
    (hfresh : ∀ e ∈ s.executors, e.2.objId = conn.objId →
      ∀ q ∈ e.2.pending, q.1 ≠ ExecutorManager.genRequestId now rand) :
    (ExecutorManager.execute s action params eid now rand
      (some msg)).state.executors = s.executors ∧
    (ExecutorManager.execute s action params eid now rand
      (some msg)).state.timers =
      s.timers.filter (fun u => u.handle != s.nextId + 1) ∧
    (∀ t ∈ (ExecutorManager.execute s action params eid now rand
      (some msg)).state.timers, t ∈ s.timers) ∧
    (ExecutorManager.execute s action params eid now rand
      (some msg)).state.settled =
      s.settled ++ [(s.nextId, Settlement.resolved
        (ExecutorManager.sendFailResult
          (ExecutorManager.genRequestId now rand) msg))] := by
  unfold ExecutorManager.execute
  rw [hget]
  dsimp only
  have htm : (s.timers ++ [(⟨s.nextId + 1, conn.objId,
      ExecutorManager.genRequestId now rand, s.nextId⟩ : Timer)]).filter
      (fun u => u.handle != s.nextId + 1) =
      s.timers.filter (fun u => u.handle != s.nextId + 1) := by
    rw [List.filter_append]
    simp
  refine ⟨?_, htm, ?_, rfl⟩
  · rw [updConn_updConn s.executors conn.objId
      (fun c => { c with pending := (mapSet c.pending
        (ExecutorManager.genRequestId now rand)
        { promiseId := s.nextId, timerId := s.nextId + 1 }) })
      (fun c => { c with pending := (mapDelete c.pending
        (ExecutorManager.genRequestId now rand)) })
      (fun c => rfl)]
    exact updConn_restore s.executors conn.objId _ _ hfresh
  · intro t ht2
    rw [htm] at ht2
    exact (List.mem_filter.mp ht2).1

/-- C7 (witness for the amended theorem): a failing send at time 7 with a
fresh suffix leaves the registry of `sPend` unchanged and resolves the
future with the send-failure Result. -/
theorem send_throw_restores_pending_witness :
    (ExecutorManager.execute sPend "click" [] none 7 "zzzzzz"
      (some "boom")).state.executors = sPend.executors ∧
    (ExecutorManager.execute sPend "click" [] none 7 "zzzzzz"
      (some "boom")).state.settled =
      sPend.settled ++ [(sPend.nextId, Settlement.resolved
        (ExecutorManager.sendFailResult
          (ExecutorManager.genRequestId 7 "zzzzzz") "boom"))] := by
  have h := send_throw_restores_pending sPend "click" [] none 7 "zzzzzz"
    "boom" connA (by decide) (by decide)
  exact ⟨h.1, h.2.2.2⟩

/-- C8 (counterexample): the claim says concurrently outstanding requests
always have pairwise distinct correlation ids.  With the same millisecond
timestamp and the same six-character random suffix, the id generated for a
second `execute` call equals the id already pending, and the `Map.set`
silently overwrites the old entry (its promise 1 is replaced by promise 3),
so the old request can no longer be completed by a reply. -/
theorem correlation_id_collision_cex :
    ExecutorManager.genRequestId 5 "abcdef" = "req_5_abcdef" ∧
    (mapGet sPend.executors "a").map (fun c => c.pending.map (fun q => q.1)) =
      some ["req_5_abcdef"] ∧
    (mapGet (ExecutorManager.execute sPend "click2" [] none 5 "abcdef"
      none).state.executors "a").map (fun c => c.pending) =
      some [("req_5_abcdef", (⟨3, 4⟩ : Pending))] := by
  decide

/-- C8 (amended): the correlation id `req_<timestamp>_<suffix>` determines
and is determined by the millisecond timestamp and the random suffix: two
generated ids are equal exactly when both the timestamps and the suffixes
coincide.  Distinctness of concurrent ids therefore holds only up to the
(timestamp, suffix) pair being distinct; a same-millisecond suffix
collision produces equal ids. -/
theorem correlation_id_of_inputs : ∀ (t1 t2 : Nat) (r1 r2 : String),
    ExecutorManager.genRequestId t1 r1 = ExecutorManager.genRequestId t2 r2
      ↔ (t1 = t2 ∧ r1 = r2) := by
  intro t1 t2 r1 r2
  constructor
  · exact genRequestId_inj
  · rintro ⟨rfl, rfl⟩
    rfl

/-- C9: the heartbeat sweep sends a ping to exactly those connections whose
`lastActiveAt` is more than `HEARTBEAT_TIMEOUT = 45000` ms before `now`
(strictly more — `now - conn.lastActiveAt > 45000`), in registry order, and
mutates nothing: the state after the sweep is the input state. -/
theorem heartbeat_sweep_pings_stale_only (s : Sys) (now : Nat) :
    (ExecutorManager.checkConnections s now).1 = s ∧
    (ExecutorManager.checkConnections s now).2 =
      (s.executors.filter (fun e =>
        decide (HEARTBEAT_TIMEOUT < now - e.2.lastActiveAt))).map
        (fun e => (e.2.ws, WireMsg.ping)) ∧
    HEARTBEAT_TIMEOUT = 45000 := by
  refine ⟨rfl, ?_, rfl⟩
  show ExecutorManager.checkConnectionsLoop now s.executors = _
  rw [checkConnectionsLoop_eq]
  rfl

/-- C10: `unregisterByWs` scans the registry in insertion order for the
first connection whose transport handle is the given one and unregisters
that executor id; if no current connection has that handle the call is a
no-op.  After re-registration the registry entry for the executor id holds
a fresh connection object with the new handle and an empty pending map, so
a close event of the old handle no longer matches any entry and cannot
tear down the new connection. -/
theorem unregisterByWs_first_match_only (s : Sys) (w wNew : Nat)
    (info : ExecutorRegister) (now : Nat) :
    (s.executors.find? (fun e => e.2.ws == w) = none →
      ExecutorManager.unregisterByWs s w = s) ∧
    (∀ e, s.executors.find? (fun e2 => e2.2.ws == w) = some e →
      ExecutorManager.unregisterByWs s w =
        ExecutorManager.unregister s e.1) ∧
    (mapGet (ExecutorManager.register s wNew info now).1.executors
      info.executorId = some
        { objId := s.nextId, ws := wNew, info := info, connectedAt := now,
          lastActiveAt := now, pending := [] }) ∧
    ((∀ e ∈ (ExecutorManager.register s wNew info now).1.executors,
        e.2.ws ≠ w) →
      ExecutorManager.unregisterByWs
        (ExecutorManager.register s wNew info now).1 w =
        (ExecutorManager.register s wNew info now).1) := by
  refine ⟨?_, ?_, ?_, ?_⟩
  · intro h
    unfold ExecutorManager.unregisterByWs
    rw [h]
  · intro e h
    unfold ExecutorManager.unregisterByWs
    rw [h]
  · exact mapGet_mapSet_self _ _ _
  · intro h
    unfold ExecutorManager.unregisterByWs
    rw [List.find?_eq_none.mpr (fun e he => by simp [h e he])]

/-- C10 (witness): after re-registering `"a"` on handle 2, a close of the
old handle 1 is a no-op, and the registry entry holds the fresh empty
connection on handle 2. -/
theorem unregisterByWs_first_match_only_witness :
    ExecutorManager.unregisterByWs
      (ExecutorManager.register sPend 2 infoA 10).1 1 =
      (ExecutorManager.register sPend 2 infoA 10).1 ∧
    mapGet (ExecutorManager.register sPend 2 infoA 10).1.executors "a" =
      some { objId := 3, ws := 2, info := infoA, connectedAt := 10,
             lastActiveAt := 10, pending := [] } := by
  constructor
  · exact (unregisterByWs_first_match_only sPend 1 2 infoA 10).2.2.2
      (by decide)
  · exact (unregisterByWs_first_match_only sPend 1 2 infoA 10).2.2.1

end WireAgent
